import Mathlib

/-!
# Verification of the synchronous-promise core of `indexed-db-as-promised`

This file embeds the core of the repository in Lean 4:

* `SyncPromise` (src/classes/sync-promise.js) is modelled as a machine over a
  heap of promise cells.  A cell's `_state`/`_value` pair is the inductive
  `St`: `pending q` holds the index of the cell's reaction queue (the code
  stores the queue array itself in `_value` while pending), `fulfilled v` and
  `rejected v` hold the settled value.  The `called` flag of a cell is the
  `called` guard captured by `doResolve` for the resolver passed to the
  constructor; `ext` records whether user code holds the cell's
  `resolve`/`reject` capabilities (true for promises made with
  `new SyncPromise`, false for the internal deferreds made by `then`).
* JavaScript handler functions are `Handler`s: `pure f` is an arbitrary
  function that returns or throws, `observer t` is a user handler that
  records the argument it is given (and, like a JS function without a
  `return`, returns `undefined`), `seqThen`/`abortThrow` are the two concrete
  closures used by `Transaction#run`.
* All mutation (`adopt`, the queue flush loop, `tryCatchDeferred`,
  `doResolve`) is executed by the fuel-indexed interpreter `exec`; fuel only
  bounds recursion depth, every theorem either holds for all fuel or states
  the (small) amount it needs.
* Cursor iteration (`CursorRequest#iterate` / `#while`) is modelled
  separately over a list of records, with an explicit cursor-object heap so
  that allocation and in-place mutation of the single `Cursor` instance are
  visible.

JavaScript values are the inductive `Val`.  A reference to a promise is
`Val.promise i` where `i` indexes the machine's cell heap.
-/

namespace IdbP

/-- JavaScript values as used by the library core.  `promise i` is a
reference to the promise cell `i`; `sentinel` is the private
`this.sentinel = {}` object created by the `Transaction` constructor in
src/transaction.js. -/
inductive Val where
  | undef
  | null
  | num (n : Int)
  | bool (b : Bool)
  | str (s : String)
  | arrNil
  | arrCons (hd tl : Val)
  | promise (i : Nat)
  | typeError (msg : String)
  | jsError (msg : String)
  | sentinel
deriving DecidableEq

/-- A JS array value from a Lean list (arrays only matter to the core as the
value `SyncPromise.all` would resolve with). -/
def Val.ofList : List Val → Val
  | [] => .arrNil
  | v :: vs => .arrCons v (Val.ofList vs)

/-- The outcome of calling a JavaScript function: a returned value or a
thrown one. -/
inductive HRes where
  | ret (v : Val)
  | thr (v : Val)
deriving DecidableEq

/-- Handler functions stored in reaction queues or passed to `then`.
`pure f` is an arbitrary JS function; `observer tag` is a user handler that
logs the value it receives and returns `undefined`; `seqThen tgt inner`
is the fulfillment handler of `Transaction#run`
(`result => this.promise.then(completion => ...)`), and `abortThrow` is its
rejection handler (`error => { this.abort(); throw error; }`). -/
inductive Handler where
  | pure (f : Val → HRes)
  | observer (tag : Nat)
  | seqThen (tgt : Nat) (inner : Val → Val → HRes)
  | abortThrow

/-- A cell's `_state`/`_value` pair.  While pending, `_value` is the reaction
queue array; the model stores the queue's index `q`. -/
inductive St where
  | pending (q : Nat)
  | fulfilled (v : Val)
  | rejected (v : Val)
deriving DecidableEq

/-- Is the state settled (fulfilled or rejected)? -/
def St.isSettled : St → Bool
  | .pending _ => false
  | _ => true

/-- Is the state pending? -/
def St.isPending : St → Bool
  | .pending _ => true
  | _ => false

/-- One promise cell.  `called` is the one-shot guard of the resolver the
constructor hands out; `ext` marks promises whose resolver escaped to user
code (made by `new SyncPromise`), as opposed to internal deferreds. -/
structure Cell where
  st : St
  called : Bool
  ext : Bool

/-- A queued reaction, as pushed by `PendingPromise`: the two handlers and
the deferred promise they settle. -/
structure Reaction where
  onF : Handler
  onR : Handler
  d : Nat

/-- Observable events: `run d arg` records that the reaction settling the
deferred `d` had its handler invoked with `arg` (the entry into
`tryCatchDeferred`); `obs tag arg` records that the user `observer tag`
handler saw `arg`. -/
inductive Ev where
  | run (d : Nat) (arg : Val)
  | obs (tag : Nat) (arg : Val)
deriving DecidableEq

/-- The promise machine: the cell heap, the queue heap, the event trace, and
the flag set when `Transaction#run`'s rejection handler calls
`this.abort()`. -/
structure Machine where
  cells : List Cell
  queues : List (List Reaction)
  trace : List Ev
  abortRequested : Bool

/-- The empty machine. -/
def m0 : Machine := ⟨[], [], [], false⟩

/-- Read a cell; out-of-range reads (which cannot arise from the source,
where references are real) give an inert already-consumed cell. -/
def Machine.cell (m : Machine) (p : Nat) : Cell :=
  m.cells.getD p ⟨.pending 0, true, false⟩

/-- Read a queue. -/
def Machine.queue (m : Machine) (q : Nat) : List Reaction :=
  m.queues.getD q []

/-- Overwrite a cell's state. -/
def setSt (m : Machine) (p : Nat) (st : St) : Machine :=
  { m with cells := m.cells.set p { m.cell p with st := st } }

/-- Set a cell's `called` guard. -/
def setCalled (m : Machine) (p : Nat) : Machine :=
  { m with cells := m.cells.set p { m.cell p with called := true } }

/-- Overwrite a queue. -/
def setQueue (m : Machine) (q : Nat) (rs : List Reaction) : Machine :=
  { m with queues := m.queues.set q rs }

/-- Append reactions to a queue. -/
def pushQ (m : Machine) (q : Nat) (rs : List Reaction) : Machine :=
  setQueue m q (m.queue q ++ rs)

/-- Record an event. -/
def emit (m : Machine) (e : Ev) : Machine :=
  { m with trace := m.trace ++ [e] }

/-- Append a fresh pending cell together with its fresh (empty) queue. -/
def addCell (m : Machine) (ext : Bool) : Machine :=
  { m with cells := m.cells ++ [⟨.pending m.queues.length, false, ext⟩],
           queues := m.queues ++ [[]] }

/-- The `TypeError` thrown by `doResolve` on self-resolution. -/
def selfErr : Val := .typeError "Cannot fulfill promise with itself"

/-- Pending work for the interpreter, defunctionalising the mutually
recursive internals of sync-promise.js (`adopt`, the queue flush,
`tryCatchDeferred`, `doResolve`, and the guarded resolver pair). -/
inductive Job where
  | adopt (p : Nat) (st : St)
  | flushLoop (q : Nat) (st : St)
  | flushList (rs : List Reaction) (st : St)
  | tryCatch (d : Nat) (h : Handler) (arg : Val)
  | doResolveD (d : Nat) (res : Val)
  | guardedResolve (d : Nat) (v : Val)
  | guardedReject (d : Nat) (e : Val)

/-- The interpreter for the promise internals.  Each case is a direct
transcription of sync-promise.js:

* `adopt p st` — `adopt(promise, state, value)`: overwrite the state, then
  flush the old pending queue (a settled source has no queue array in
  `_value`, so nothing is flushed).
* `flushLoop`/`flushList` — the `for` loop in `adopt`; the loop iterates the
  live array, so after a pass the queue is re-read in case reactions were
  migrated onto it while it was being flushed.
* `tryCatch d h arg` — `tryCatchDeferred(deferred, fn, arg)`: run the
  handler, then `doResolve` the result, rejecting on a throw.
* `doResolveD d res` — `doResolve` as called from `tryCatchDeferred`: a
  self-reference rejects with a `TypeError`, a promise result is adopted
  directly, any other value goes through the guarded resolver.  (A promise
  index outside the heap cannot arise from the source; it is treated as an
  ordinary value.)
* `guardedResolve`/`guardedReject` — the `called`-guarded resolver pair the
  constructor's `doResolve` wraps around the raw adopters. -/
def exec : Nat → Job → Machine → Machine
  | 0, _, m => m
  | fuel + 1, job, m =>
    match job with
    | .adopt p st =>
      match (m.cell p).st with
      | .pending q => exec fuel (.flushLoop q st) (setSt m p st)
      | _ => setSt m p st
    | .flushLoop q st =>
      match m.queue q with
      | [] => m
      | r :: rs =>
        exec fuel (.flushLoop q st)
          (exec fuel (.flushList (r :: rs) st) (setQueue m q []))
    | .flushList rs st =>
      match rs with
      | [] => m
      | r :: rest =>
        let m1 := match st with
          | .pending q2 => pushQ m q2 [r]
          | .fulfilled v => exec fuel (.tryCatch r.d r.onF v) m
          | .rejected e => exec fuel (.tryCatch r.d r.onR e) m
        exec fuel (.flushList rest st) m1
    | .tryCatch d h arg =>
      let mr := emit m (.run d arg)
      match h with
      | .pure f =>
        match f arg with
        | .thr e => exec fuel (.guardedReject d e) mr
        | .ret v => exec fuel (.doResolveD d v) mr
      | .observer tag =>
        exec fuel (.doResolveD d .undef) (emit mr (.obs tag arg))
      | .seqThen tgt inner =>
        let q := mr.cells.length
        let m1 := addCell mr false
        let m2 := match (mr.cell tgt).st with
          | .pending qq => pushQ m1 qq [⟨.pure (inner arg), .pure .thr, q⟩]
          | .fulfilled v => exec fuel (.tryCatch q (.pure (inner arg)) v) m1
          | .rejected e => exec fuel (.tryCatch q (.pure .thr) e) m1
        exec fuel (.doResolveD d (.promise q)) m2
      | .abortThrow =>
        exec fuel (.guardedReject d arg) { mr with abortRequested := true }
    | .doResolveD d res =>
      if res = .promise d then exec fuel (.guardedReject d selfErr) m
      else
        match res with
        | .promise j =>
          if j < m.cells.length then exec fuel (.adopt d ((m.cell j).st)) m
          else exec fuel (.guardedResolve d res) m
        | _ => exec fuel (.guardedResolve d res) m
    | .guardedResolve d v =>
      if (m.cell d).called then m
      else exec fuel (.adopt d (.fulfilled v)) (setCalled m d)
    | .guardedReject d e =>
      if (m.cell d).called then m
      else exec fuel (.adopt d (.rejected e)) (setCalled m d)

/-- `new SyncPromise(resolver)` where the resolver only captures
`resolve`/`reject` for later use: a fresh externally resolvable pending
cell.  Returns its index. -/
def mkPending (m : Machine) : Nat × Machine :=
  (m.cells.length, addCell m true)

/-- The `resolve` capability the constructor hands to its resolver (the
`called`-guarded `onRes` of `doResolve`'s thenable branch, which forwards to
`doResolve(promise, rawFulfilAdopter, rawRejectAdopter, value, value)`):
first call wins; a self-reference rejects with a `TypeError`; another
SyncPromise is adopted in whatever state it currently is (sharing its
queue while pending); any other value fulfills. -/
def resolveOp (fuel : Nat) (p : Nat) (v : Val) (m : Machine) : Machine :=
  if (m.cell p).called then m
  else
    let m1 := setCalled m p
    if v = .promise p then exec fuel (.adopt p (.rejected selfErr)) m1
    else
      match v with
      | .promise j =>
        if j < m1.cells.length then exec fuel (.adopt p ((m1.cell j).st)) m1
        else exec fuel (.adopt p (.fulfilled v)) m1
      | _ => exec fuel (.adopt p (.fulfilled v)) m1

/-- The matching `reject` capability: first call wins, then the raw adopter
moves the cell to `rejected`. -/
def rejectOp (fuel : Nat) (p : Nat) (e : Val) (m : Machine) : Machine :=
  if (m.cell p).called then m
  else exec fuel (.adopt p (.rejected e)) (setCalled m p)

/-- `SyncPromise#then(onFulfilled, onRejected)`: make the deferred, then
dispatch on the receiver's state — queue the reaction while pending, or run
the appropriate handler immediately on a settled receiver.  Returns the
deferred's index. -/
def thenOp (fuel : Nat) (p : Nat) (onF onR : Handler) (m : Machine) :
    Nat × Machine :=
  let d := m.cells.length
  let m1 := addCell m false
  match (m.cell p).st with
  | .pending q => (d, pushQ m1 q [⟨onF, onR, d⟩])
  | .fulfilled v => (d, exec fuel (.tryCatch d onF v) m1)
  | .rejected e => (d, exec fuel (.tryCatch d onR e) m1)

/-- `SyncPromise.all(promises)` (sync-promise.js lines 56–75).  The executor
resolves with `new Array(0)` for an empty input; for a non-empty input the
first loop iteration evaluates the unbound identifier `promise`
(line 67 reads `SyncPromise.resolve(promise)` although the loop variable is
`promises[i]`), so the executor throws a `ReferenceError`, which the
constructor's `doResolve` catches and converts into a rejection of the new
promise. -/
def allOp (fuel : Nat) (ps : List Val) (m : Machine) : Nat × Machine :=
  let (p, m1) := mkPending m
  if ps.length = 0 then (p, resolveOp fuel p (Val.ofList []) m1)
  else
    (p, rejectOp fuel p (.jsError "ReferenceError: promise is not defined") m1)

/-! ## Transaction run-scope (src/transaction.js, the sentinel variant)

`Transaction`'s constructor wires `this.promise` to the host events:
`oncomplete` resolves with the private `this.sentinel` object, `onerror`
rejects with the event's error, and `onabort` either rejects or — when an
abort-recovery handler was supplied — resolves with that handler's result.
The handler plumbing for the recovery case lives in `recoverWith` in
`./util`, which is not among the provided sources; `hostAbortRecovered`
below is modelled from the spec. -/

/-- A transaction handle: the index of its completion promise
(`this.promise`). -/
structure Txn where
  comp : Nat

/-- The `Transaction` constructor: `this.promise = new SyncPromise(...)`
where the resolver only installs the host event handlers. -/
def mkTxn (m : Machine) : Txn × Machine :=
  let (c, m1) := mkPending m
  (⟨c⟩, m1)

/-- The host fires `oncomplete`: `() => resolve(this.sentinel)`. -/
def hostComplete (fuel : Nat) (t : Txn) (m : Machine) : Machine :=
  resolveOp fuel t.comp .sentinel m

/-- The host fires `onerror`: `rejectWithError(reject)` forwards the event's
error. -/
def hostError (fuel : Nat) (t : Txn) (e : Val) (m : Machine) : Machine :=
  rejectOp fuel t.comp e m

/-- The host fires `onabort` on a transaction built without an
abort-recovery handler: `rejectWithError(reject)` forwards the event's
error. -/
def hostAbortPlain (fuel : Nat) (t : Txn) (e : Val) (m : Machine) : Machine :=
  rejectOp fuel t.comp e m

/-- Modelled from the spec: the host fires `onabort` on a transaction built
with an abort-recovery handler.  `recoverWith(resolve, aborted)` is imported
from `./util`, which is absent from the sources; per the spec the handler's
own (possibly asynchronous) result becomes the resolution value, so the
completion promise is resolved with `w`, the value (possibly a promise)
returned by the recovery handler. -/
def hostAbortRecovered (fuel : Nat) (t : Txn) (w : Val) (m : Machine) :
    Machine :=
  resolveOp fuel t.comp w m

/-- `Transaction#run(callback)` (src/transaction.js lines 36–47), for a
callback whose body produced `cbResult`:

```
return new SyncPromise((resolve) => resolve(callback(this)))
  .then((result) => this.promise.then(
     (completion) => completion === this.sentinel ? result : completion),
   (error) => { this.abort(); throw error; });
```

Returns the index of the promise `run` hands back. -/
def runTxn (fuel : Nat) (t : Txn) (cbResult : Val) (m : Machine) :
    Nat × Machine :=
  let (p0, m1) := mkPending m
  let m2 := resolveOp fuel p0 cbResult m1
  thenOp fuel p0
    (.seqThen t.comp fun result completion =>
      .ret (if completion = Val.sentinel then result else completion))
    .abortThrow m2

/-! ## Run-once guard (the transaction variant of part_004)

That variant tracks `this.ran_`, set at construction for `versionchange`
transactions and checked by `run`, which throws synchronously (`throw new
Error(...)`) rather than returning a rejected promise.  The synchronous
throw is the `Except.error` branch. -/

/-- The run-once state of the part_004 `Transaction`. -/
structure Txn8 where
  mode : String
  ran : Bool
deriving DecidableEq

/-- The part_004 constructor: `this.ran_ = this.mode === 'versionchange'`. -/
def mkTxn8 (mode : String) : Txn8 :=
  ⟨mode, mode = "versionchange"⟩

/-- The guard prefix of the part_004 `Transaction#run` (lines 393–398): a
transaction that has already run throws synchronously; otherwise `ran_` is
set and the run proceeds (to the `SyncPromise` chain modelled by `runTxn`).
The `Except.error` branch is a synchronous `throw` to the caller, not a
rejected promise. -/
def run8 (t : Txn8) : Except String Txn8 :=
  if t.ran then .error "Transaction has already run."
  else .ok { t with ran := true }

/-! ## Cursor iteration (the cursor module, part_005)

`CursorRequest#iterate` drives a single `Cursor` object down a stream of
records.  The model keeps:

* `Rec` — the host record at one cursor position (`key`, `primaryKey`,
  `value`);
* `CursorObj` — the wrapper `Cursor`'s fields: `transaction`, `source` and
  `direction` are set once by the constructor, `key`/`primaryKey`/`value`
  are overwritten before each iterator invocation;
* an iterator function of type `σ → CursorObj → IterStep × σ` — the user
  callback, which sees the (single, shared) cursor object and either leaves
  the cursor alone (`stay`: the underlying request's `readyState` is still
  `'done'` after its result settles) or advances it (`go n` moves `n + 1`
  positions: `continue()` is `go 0`, `advance(k)` is `go (k - 1)`; the host
  requires `k ≥ 1`), together with the value its result resolves to;
* `IterTrace` — the heap of `Cursor` objects allocated by this call and the
  log of `(cursor index, cursor contents)` passed to each iterator
  invocation, making allocation and in-place mutation observable. -/

/-- A host record at one cursor position. -/
structure Rec where
  key : Val
  primaryKey : Val
  value : Val
deriving DecidableEq

/-- The fields of the wrapper `Cursor` object. -/
structure CursorObj where
  transaction : Nat
  source : Nat
  direction : Val
  key : Val
  primaryKey : Val
  value : Val
deriving DecidableEq

/-- What the iterator did to the cursor during its step. -/
inductive IterAct where
  | stay
  | go (n : Nat)
deriving DecidableEq

/-- One iterator step: the advancement action and the value the iterator's
result resolved to. -/
structure IterStep where
  act : IterAct
  ret : Val
deriving DecidableEq

/-- Allocation/invocation bookkeeping of one `iterate` call. -/
structure IterTrace where
  cursors : List CursorObj
  callLog : List (Nat × CursorObj)
deriving DecidableEq

/-- The recursive `step` of `iterate`: on a live position, overwrite the
cursor's `key`/`primaryKey`/`value` in place, invoke the iterator, push its
resolved value, and — if the iterator advanced the cursor (the request's
`readyState` is no longer `'done'`) — wait for the next position; a `null`
result (end of range) returns the collected results. -/
def iterStepLoop (it : σ → CursorObj → IterStep × σ) :
    Nat → σ → List Rec → CursorObj → IterTrace →
      List Val × CursorObj × IterTrace × σ
  | _, s, [], cur, tr => ([], cur, tr, s)
  | 0, s, _ :: _, cur, tr => ([], cur, tr, s)
  | fuel + 1, s, r :: rest, cur, tr =>
    let cur1 := { cur with key := r.key, primaryKey := r.primaryKey,
                           value := r.value }
    let tr1 : IterTrace := ⟨tr.cursors.set 0 cur1, tr.callLog ++ [(0, cur1)]⟩
    let (st, s1) := it s cur1
    match st.act with
    | .stay => ([st.ret], cur1, tr1, s1)
    | .go n =>
      let (vs, c2, tr2, s2) := iterStepLoop it fuel s1 (rest.drop n) cur1 tr1
      (st.ret :: vs, c2, tr2, s2)

/-- `CursorRequest#iterate(iterator)` over the stream of records the host
cursor will visit: if the first request resolves to `null` the iteration
resolves with `[]` before any `Cursor` is constructed; otherwise a single
`Cursor` is allocated and `step` drives it.  The recursion bound
`recs.length` is always sufficient, since every step consumes at least one
record. -/
def iterate (it : σ → CursorObj → IterStep × σ) (s : σ)
    (t src : Nat) (dir : Val) (recs : List Rec) :
    List Val × IterTrace × σ :=
  match recs with
  | [] => ([], ⟨[], []⟩, s)
  | r :: rest =>
    let cur0 : CursorObj := ⟨t, src, dir, .null, .null, .null⟩
    let (vs, _, tr, s1) :=
      iterStepLoop it (r :: rest).length s (r :: rest) cur0 ⟨[cur0], []⟩
    (vs, tr, s1)

/-- The `autoAdvancer` wrapper of `CursorRequest#while`: after the
iterator's result resolves, if the request's `readyState` is still `'done'`
(the iterator did not advance), a result of exactly `false` sets the
`preempt` flag and otherwise `cursor.continue()` is issued; an explicitly
advanced cursor passes the result through untouched. -/
def autoAdvance (it : σ → CursorObj → IterStep × σ) :
    σ × Bool → CursorObj → IterStep × (σ × Bool) :=
  fun sp c =>
    let (st, s1) := it sp.1 c
    match st.act with
    | .stay =>
      if st.ret = .bool false then (⟨.stay, st.ret⟩, (s1, true))
      else (⟨.go 0, st.ret⟩, (s1, sp.2))
    | .go n => (⟨.go n, st.ret⟩, (s1, sp.2))

/-- `CursorRequest#while(iterator)`: `iterate` with the `autoAdvancer`
wrapper; when iteration was preempted by a plain `false` the final `false`
is popped from the results. -/
def whileOp (it : σ → CursorObj → IterStep × σ) (s : σ)
    (t src : Nat) (dir : Val) (recs : List Rec) :
    List Val × IterTrace × (σ × Bool) :=
  let (vs, tr, s1) := iterate (autoAdvance it) (s, false) t src dir recs
  (if s1.2 then vs.dropLast else vs, tr, s1)

/-- The cursor object as it reads at the position of record `r` (constant
fields from construction, position fields overwritten from `r`). -/
def cursorAt (t src : Nat) (dir : Val) (r : Rec) : CursorObj :=
  ⟨t, src, dir, r.key, r.primaryKey, r.value⟩

/-- The records an `iterate` call visits (invokes the iterator at), mirroring
the loop's advancement decisions. -/
def visitedRecs (it : σ → CursorObj → IterStep × σ) (t src : Nat)
    (dir : Val) : Nat → σ → List Rec → List Rec
  | _, _, [] => []
  | 0, _, _ :: _ => []
  | fuel + 1, s, r :: rest =>
    let (st, s1) := it s (cursorAt t src dir r)
    match st.act with
    | .stay => [r]
    | .go n => r :: visitedRecs it t src dir fuel s1 (rest.drop n)

/-- The cursor object after its position fields are overwritten in place
from record `r` (constant fields kept). -/
def snapAt (cur : CursorObj) (r : Rec) : CursorObj :=
  ⟨cur.transaction, cur.source, cur.direction, r.key, r.primaryKey, r.value⟩

/-- An iterator that does nothing at every step (used as a concrete
instance). -/
def constStay : Unit → CursorObj → IterStep × Unit :=
  fun _ _ => (⟨.stay, .null⟩, ())

/-- An iterator that returns exactly `false` without advancing. -/
def constStayFalse : Unit → CursorObj → IterStep × Unit :=
  fun _ _ => (⟨.stay, .bool false⟩, ())

/-- An iterator that explicitly continues and returns `false`. -/
def constGoFalse : Unit → CursorObj → IterStep × Unit :=
  fun _ _ => (⟨.go 0, .bool false⟩, ())

/-- A concrete record. -/
def rec1 : Rec := ⟨.num 1, .num 1, .num 10⟩

/-- Another concrete record. -/
def rec2 : Rec := ⟨.num 2, .num 2, .num 20⟩

/-! ## Derived notions used by the theorems -/

/-- A value that is not a promise reference (a "plain" value: `doResolve`
fulfills with it directly). -/
def isPlain : Val → Bool
  | .promise _ => false
  | _ => true

/-- The state `then`'s deferred `d` ends in when the invoked handler's
outcome is `res`, per `tryCatchDeferred`/`doResolve`: a throw rejects; a
self-reference rejects with the `TypeError`; a promise is adopted in its
current state; anything else fulfills. -/
def hresOutcome (m : Machine) (d : Nat) : HRes → St
  | .thr e => .rejected e
  | .ret w =>
    if w = .promise d then .rejected selfErr
    else
      match w with
      | .promise j => if j < m.cells.length then (m.cell j).st else .fulfilled w
      | _ => .fulfilled w

/-- How many times the reaction settling deferred `d` has run. -/
def runCount (tr : List Ev) (d : Nat) : Nat :=
  tr.countP fun e => match e with | .run d1 _ => d1 = d | _ => false

/-- How many reactions in one queue target deferred `d`. -/
def cnt (l : List Reaction) (d : Nat) : Nat :=
  l.countP fun r => r.d = d

/-- How many queued reactions target deferred `d`. -/
def occCount (qs : List (List Reaction)) (d : Nat) : Nat :=
  (qs.map fun q => q.countP fun r => r.d = d).sum

/-- The operations user code can perform against the promise machine:
construct a promise (capturing its resolver), call a captured
`resolve`/`reject` (possible only for promises the user constructed, whose
resolver escaped), and register handlers with `then` — either arbitrary
functions or logging observers. -/
inductive Op where
  | newP
  | callResolve (p : Nat) (v : Val)
  | callReject (p : Nat) (v : Val)
  | thenF (p : Nat) (f g : Val → HRes)
  | thenObs (p : Nat) (tag : Nat)

/-- Execute one user operation.  `callResolve`/`callReject` on a promise the
user has no resolver for (an internal deferred), or `then` on a promise
that does not exist, cannot happen in JS and are no-ops. -/
def stepOp (fuel : Nat) : Op → Machine → Machine
  | .newP, m => (mkPending m).2
  | .callResolve p v, m =>
    if (m.cell p).ext then resolveOp fuel p v m else m
  | .callReject p v, m =>
    if (m.cell p).ext then rejectOp fuel p v m else m
  | .thenF p f g, m =>
    if p < m.cells.length then (thenOp fuel p (.pure f) (.pure g) m).2 else m
  | .thenObs p tag, m =>
    if p < m.cells.length then
      (thenOp fuel p (.observer tag) (.observer tag) m).2
    else m

/-- Execute a user program from a machine. -/
def execProg (fuel : Nat) (ops : List Op) (m : Machine) : Machine :=
  ops.foldl (fun mm op => stepOp fuel op mm) m

/-- The program refuting the universally quantified form of the
reaction-delivery claim: promise `0` is resolved with the still-pending
promise `1`; after promise `1` fulfills, a handler is registered on promise
`0`.  Promise `0` never transitions (it permanently shares promise `1`'s
already-flushed queue), so the late handler is never run. -/
def zombieProg : List Op :=
  [.newP, .newP, .callResolve 0 (.promise 1), .callResolve 1 (.num 5),
   .thenObs 0 0]

/-- The prefix of `zombieProg` up to and including the moment promise `0`'s
value became determined (promise `1` fulfilled with `5`). -/
def zombieProgEarly : List Op :=
  [.newP, .newP, .callResolve 0 (.promise 1), .callResolve 1 (.num 5)]

/-- The same adoption scenario with the observer registered while promise
`0` was still pending: that early handler migrates onto promise `1`'s queue
and runs when promise `1` fulfills. -/
def zombieEarlyObs : List Op :=
  [.newP, .newP, .thenObs 0 7, .callResolve 0 (.promise 1),
   .callResolve 1 (.num 5)]

/-- The `Transaction#run` scenario for a callback resolving to `v`:
construct the transaction, call `run`, and register a user observer on the
promise `run` returned.  Cell 0 is the completion promise, cell 1 the
callback wrapper, cell 2 the promise `run` returns, cell 3 the deferred of
`this.promise.then(...)`, cell 4 the observer's deferred.  Returns the
machine just before any host event fires. -/
def c2Setup (fuel : Nat) (v : Val) : Machine :=
  let (t, m1) := mkTxn m0
  let (rp, m2) := runTxn fuel t v m1
  (thenOp fuel rp (.observer 0) (.observer 1) m2).2

/-- The abort-recovery scenario where the recovery handler returns a
still-pending promise: a transaction whose completion promise (cell 0) has
a user observer (deferred cell 2), aborted with recovery result
`promise 1`. -/
def c5AsyncSetup (fuel : Nat) : Machine :=
  let (t, m1) := mkTxn m0
  let (_, m2) := mkPending m1
  let m3 := (thenOp fuel t.comp (.observer 0) (.observer 1) m2).2
  hostAbortRecovered fuel t (.promise 1) m3

/-- Handlers registrable through the user-facing operations: plain
functions and observers (the two internal `Transaction#run` closures are
never stored by `Op` programs). -/
def simpleH : Handler → Prop
  | .pure _ => True
  | .observer _ => True
  | _ => False

/-- A state to be adopted is well formed when a pending state's queue index
is in range. -/
def stOK (m : Machine) : St → Prop
  | .pending q => q < m.queues.length
  | _ => True

/-- A deferred currently being settled: in range, internal, pending, not
targeted by any queued reaction. -/
def dOK (m : Machine) (d : Nat) : Prop :=
  d < m.cells.length ∧ (m.cell d).ext = false
    ∧ (m.cell d).st.isPending = true ∧ occCount m.queues d = 0

/-- A snapshot of reactions taken off a queue for flushing: distinct
targets, each a not-yet-run pending internal deferred with user handlers. -/
def rsOK (m : Machine) (rs : List Reaction) : Prop :=
  (rs.map Reaction.d).Nodup
    ∧ ∀ r ∈ rs, r.d < m.cells.length ∧ (m.cell r.d).ext = false
        ∧ (m.cell r.d).st.isPending = true ∧ runCount m.trace r.d = 0
        ∧ occCount m.queues r.d = 0 ∧ simpleH r.onF ∧ simpleH r.onR

/-- Precondition of each interpreter job, as established by its callers in
sync-promise.js. -/
def JobPre (m : Machine) : Job → Prop
  | .adopt p st => p < m.cells.length ∧ (m.cell p).st.isPending = true
      ∧ stOK m st ∧ ((m.cell p).ext = true → (m.cell p).called = true)
      ∧ ((m.cell p).ext = true ∨ occCount m.queues p = 0)
  | .flushLoop _ st => stOK m st
  | .flushList rs st => stOK m st ∧ rsOK m rs
  | .tryCatch d h _ => dOK m d ∧ runCount m.trace d = 0 ∧ simpleH h
  | .doResolveD d _ => dOK m d
  | .guardedResolve d _ => dOK m d
  | .guardedReject d _ => dOK m d

/-- The machine invariant maintained by every reachable state of an `Op`
program:

* a pending cell's queue index is in range;
* every queued reaction targets an in-range, internal, still-pending
  deferred and stores user handlers;
* an externally resolvable promise whose guard is unconsumed is pending;
* each deferred is run or queued at most once in total;
* run events name in-range deferreds; and there are at least as many
  queues as cells. -/
structure INV (m : Machine) : Prop where
  stBound : ∀ p q, p < m.cells.length → (m.cell p).st = .pending q →
      q < m.queues.length
  qReact : ∀ q r, r ∈ m.queue q → r.d < m.cells.length
      ∧ (m.cell r.d).ext = false ∧ (m.cell r.d).st.isPending = true
      ∧ simpleH r.onF ∧ simpleH r.onR
  extGuard : ∀ p, p < m.cells.length → (m.cell p).ext = true →
      (m.cell p).called = false → (m.cell p).st.isPending = true
  budget : ∀ d, runCount m.trace d + occCount m.queues d ≤ 1
  runBound : ∀ d v, Ev.run d v ∈ m.trace → d < m.cells.length
  qLen : m.cells.length ≤ m.queues.length

/-- One interpreter step extends the machine: heap sizes are unchanged,
settled cells are untouched, the trace only grows. -/
structure MExt (m m1 : Machine) : Prop where
  cellsLen : m1.cells.length = m.cells.length
  queuesLen : m1.queues.length = m.queues.length
  settledKeep : ∀ p, (m.cell p).st.isSettled = true → m1.cell p = m.cell p
  traceExt : ∃ ts, m1.trace = m.trace ++ ts

/-- A deferred that has not been run, is not queued anywhere, and is still
a pending internal cell. -/
def Fresh (m : Machine) (p : Nat) : Prop :=
  (m.cell p).ext = false ∧ (m.cell p).st.isPending = true
    ∧ runCount m.trace p = 0 ∧ occCount m.queues p = 0

/-- The deferreds a job may settle or enqueue. -/
def jobRoots : Job → List Nat
  | .adopt p _ => [p]
  | .flushLoop _ _ => []
  | .flushList rs _ => rs.map Reaction.d
  | .tryCatch d _ _ => [d]
  | .doResolveD d _ => [d]
  | .guardedResolve d _ => [d]
  | .guardedReject d _ => [d]

/-- The job left cell `p` alone: unchanged, still unrun and unqueued. -/
def FreshKeep (m m1 : Machine) (p : Nat) : Prop :=
  m1.cell p = m.cell p ∧ runCount m1.trace p = 0
    ∧ occCount m1.queues p = 0

/-- A one-cell machine holding a promise fulfilled with `7` (concrete
instance used to exercise the `then`-on-settled theorem). -/
def w1m : Machine := ⟨[⟨.fulfilled (.num 7), true, true⟩], [[]], [], false⟩

/-- The machine `c2Setup 20 v` evaluates to, for a plain `v`, written out:
the completion promise (cell 0) still pending with `run`'s join handler
queued on it; the callback promise (cell 1) fulfilled with `v`; the promise
`run` returned (cell 2) sharing queue 3 with the join's deferred (cell 3);
the consumer's deferred (cell 4) queued on queue 3. -/
def c2After (v : Val) : Machine :=
  ⟨[⟨.pending 0, false, true⟩, ⟨.fulfilled v, true, true⟩,
    ⟨.pending 3, false, false⟩, ⟨.pending 3, false, false⟩,
    ⟨.pending 4, false, false⟩],
   [[⟨.pure fun c => .ret (if c = Val.sentinel then v else c), .pure .thr,
      3⟩],
    [], [], [⟨.observer 0, .observer 1, 4⟩], []],
   [.run 2 v], false⟩

/-- The machine `c5AsyncSetup 20` evaluates to, written out: the completion
promise (cell 0) has pending-adopted the recovery promise (cell 1), and the
consumer's reaction has been migrated onto queue 1. -/
def c5After : Machine :=
  ⟨[⟨.pending 1, true, true⟩, ⟨.pending 1, false, true⟩,
    ⟨.pending 2, false, false⟩],
   [[], [⟨.observer 0, .observer 1, 2⟩], []], [], false⟩

/-! ## Evaluation lemmas for the machine's primitive operations -/

@[simp] lemma cell_emit (m : Machine) (e : Ev) (p : Nat) :
    (emit m e).cell p = m.cell p := rfl

@[simp] lemma queue_emit (m : Machine) (e : Ev) (q : Nat) :
    (emit m e).queue q = m.queue q := rfl

@[simp] lemma trace_emit (m : Machine) (e : Ev) :
    (emit m e).trace = m.trace ++ [e] := rfl

@[simp] lemma cells_emit (m : Machine) (e : Ev) :
    (emit m e).cells = m.cells := rfl

@[simp] lemma queues_emit (m : Machine) (e : Ev) :
    (emit m e).queues = m.queues := rfl

@[simp] lemma len_cells_addCell (m : Machine) (e : Bool) :
    (addCell m e).cells.length = m.cells.length + 1 := by
  simp [addCell]

@[simp] lemma len_queues_addCell (m : Machine) (e : Bool) :
    (addCell m e).queues.length = m.queues.length + 1 := by
  simp [addCell]

lemma cell_addCell_of_lt (m : Machine) (e : Bool) {i : Nat}
    (h : i < m.cells.length) : (addCell m e).cell i = m.cell i := by
  simp [Machine.cell, addCell, List.getD_eq_getElem?_getD,
    List.getElem?_append, h]

@[simp] lemma cell_addCell_len (m : Machine) (e : Bool) :
    (addCell m e).cell m.cells.length =
      ⟨.pending m.queues.length, false, e⟩ := by
  simp [Machine.cell, addCell, List.getD_eq_getElem?_getD,
    List.getElem?_append_right]

lemma queue_addCell_of_lt (m : Machine) (e : Bool) {q : Nat}
    (h : q < m.queues.length) : (addCell m e).queue q = m.queue q := by
  simp [Machine.queue, addCell, List.getD_eq_getElem?_getD,
    List.getElem?_append, h]

@[simp] lemma queue_addCell_len (m : Machine) (e : Bool) :
    (addCell m e).queue m.queues.length = [] := by
  simp [Machine.queue, addCell, List.getD_eq_getElem?_getD,
    List.getElem?_append_right]

@[simp] lemma trace_addCell (m : Machine) (e : Bool) :
    (addCell m e).trace = m.trace := rfl

@[simp] lemma len_cells_setSt (m : Machine) (p : Nat) (st : St) :
    (setSt m p st).cells.length = m.cells.length := by
  simp [setSt]

@[simp] lemma queues_setSt (m : Machine) (p : Nat) (st : St) :
    (setSt m p st).queues = m.queues := rfl

@[simp] lemma trace_setSt (m : Machine) (p : Nat) (st : St) :
    (setSt m p st).trace = m.trace := rfl

lemma cell_setSt_self (m : Machine) {p : Nat} {st : St}
    (h : p < m.cells.length) :
    (setSt m p st).cell p = ⟨st, (m.cell p).called, (m.cell p).ext⟩ := by
  simp [Machine.cell, setSt, List.getD_eq_getElem?_getD, List.getElem?_set, h]

lemma cell_setSt_other (m : Machine) {p i : Nat} {st : St} (h : i ≠ p) :
    (setSt m p st).cell i = m.cell i := by
  have h1 : ¬ (p = i) := fun hh => h hh.symm
  simp [Machine.cell, setSt, List.getD_eq_getElem?_getD, List.getElem?_set,
    h1]

@[simp] lemma queue_setSt (m : Machine) (p : Nat) (st : St) (q : Nat) :
    (setSt m p st).queue q = m.queue q := rfl

@[simp] lemma len_cells_setCalled (m : Machine) (p : Nat) :
    (setCalled m p).cells.length = m.cells.length := by
  simp [setCalled]

@[simp] lemma queues_setCalled (m : Machine) (p : Nat) :
    (setCalled m p).queues = m.queues := rfl

@[simp] lemma trace_setCalled (m : Machine) (p : Nat) :
    (setCalled m p).trace = m.trace := rfl

@[simp] lemma queue_setCalled (m : Machine) (p q : Nat) :
    (setCalled m p).queue q = m.queue q := rfl

lemma cell_setCalled_self (m : Machine) {p : Nat} (h : p < m.cells.length) :
    (setCalled m p).cell p = ⟨(m.cell p).st, true, (m.cell p).ext⟩ := by
  simp [Machine.cell, setCalled, List.getD_eq_getElem?_getD,
    List.getElem?_set, h]

lemma cell_setCalled_other (m : Machine) {p i : Nat} (h : i ≠ p) :
    (setCalled m p).cell i = m.cell i := by
  have h1 : ¬ (p = i) := fun hh => h hh.symm
  simp [Machine.cell, setCalled, List.getD_eq_getElem?_getD,
    List.getElem?_set, h1]

@[simp] lemma cell_setQueue (m : Machine) (q : Nat) (rs : List Reaction)
    (p : Nat) : (setQueue m q rs).cell p = m.cell p := rfl

@[simp] lemma cells_setQueue (m : Machine) (q : Nat) (rs : List Reaction) :
    (setQueue m q rs).cells = m.cells := rfl

@[simp] lemma trace_setQueue (m : Machine) (q : Nat) (rs : List Reaction) :
    (setQueue m q rs).trace = m.trace := rfl

@[simp] lemma len_queues_setQueue (m : Machine) (q : Nat)
    (rs : List Reaction) : (setQueue m q rs).queues.length =
      m.queues.length := by
  simp [setQueue]

lemma queue_setQueue_self (m : Machine) {q : Nat} (rs : List Reaction)
    (h : q < m.queues.length) : (setQueue m q rs).queue q = rs := by
  simp [Machine.queue, setQueue, List.getD_eq_getElem?_getD,
    List.getElem?_set, h]

lemma queue_setQueue_other (m : Machine) {q q1 : Nat} (rs : List Reaction)
    (h : q1 ≠ q) : (setQueue m q rs).queue q1 = m.queue q1 := by
  have h1 : ¬ (q = q1) := fun hh => h hh.symm
  simp [Machine.queue, setQueue, List.getD_eq_getElem?_getD,
    List.getElem?_set, h1]

@[simp] lemma cell_pushQ (m : Machine) (q : Nat) (rs : List Reaction)
    (p : Nat) : (pushQ m q rs).cell p = m.cell p := rfl

@[simp] lemma trace_pushQ (m : Machine) (q : Nat) (rs : List Reaction) :
    (pushQ m q rs).trace = m.trace := rfl

@[simp] lemma cells_pushQ (m : Machine) (q : Nat) (rs : List Reaction) :
    (pushQ m q rs).cells = m.cells := rfl

lemma queue_pushQ_self (m : Machine) {q : Nat} (rs : List Reaction)
    (h : q < m.queues.length) :
    (pushQ m q rs).queue q = m.queue q ++ rs :=
  queue_setQueue_self m _ h

lemma queue_pushQ_other (m : Machine) {q q1 : Nat} (rs : List Reaction)
    (h : q1 ≠ q) : (pushQ m q rs).queue q1 = m.queue q1 :=
  queue_setQueue_other m _ h

@[simp] lemma exec_zero (j : Job) (m : Machine) : exec 0 j m = m := rfl

/-- A flush of an empty queue is the identity, whatever the fuel. -/
lemma exec_flushLoop_nil {m : Machine} {q : Nat} (st : St)
    (h : m.queue q = []) : ∀ fuel, exec fuel (.flushLoop q st) m = m := by
  intro fuel
  cases fuel with
  | zero => rfl
  | succ n => simp [exec, h]

/-- Adopting a state into a pending cell whose queue is empty just
overwrites the state. -/
lemma exec_adopt_fresh {m : Machine} {d qd : Nat} {st : St} (fuel : Nat)
    (hst : (m.cell d).st = .pending qd) (hq : m.queue qd = []) :
    exec (fuel + 1) (.adopt d st) m = setSt m d st := by
  simp only [exec, hst]
  exact exec_flushLoop_nil st (by simpa using hq) fuel

/-- The guarded resolver on a not-yet-called pending cell with an empty
queue: consume the guard and fulfill. -/
lemma exec_guardedResolve_fresh {m : Machine} {d qd : Nat} {w : Val}
    (fuel : Nat) (hd : d < m.cells.length)
    (hst : (m.cell d).st = .pending qd) (hc : (m.cell d).called = false)
    (hq : m.queue qd = []) :
    exec (fuel + 2) (.guardedResolve d w) m =
      setSt (setCalled m d) d (.fulfilled w) := by
  simp only [exec, hc]
  exact exec_adopt_fresh fuel
    (by rw [cell_setCalled_self m hd, hst]) (by simpa using hq)

/-- The guarded rejecter on a not-yet-called pending cell with an empty
queue: consume the guard and reject. -/
lemma exec_guardedReject_fresh {m : Machine} {d qd : Nat} {e : Val}
    (fuel : Nat) (hd : d < m.cells.length)
    (hst : (m.cell d).st = .pending qd) (hc : (m.cell d).called = false)
    (hq : m.queue qd = []) :
    exec (fuel + 2) (.guardedReject d e) m =
      setSt (setCalled m d) d (.rejected e) := by
  simp only [exec, hc]
  exact exec_adopt_fresh fuel
    (by rw [cell_setCalled_self m hd, hst]) (by simpa using hq)

/-- `doResolve` on a plain (non-promise) handler result goes through the
guarded resolver. -/
lemma exec_doResolveD_plain {m : Machine} {d : Nat} {w : Val} (fuel : Nat)
    (hplain : isPlain w = true) :
    exec (fuel + 1) (.doResolveD d w) m =
      exec fuel (.guardedResolve d w) m := by
  cases w <;> simp_all [exec, isPlain]

/-- `doResolve` on a handler result that is the deferred itself rejects with
the `TypeError`. -/
lemma exec_doResolveD_self {m : Machine} {d : Nat} (fuel : Nat) :
    exec (fuel + 1) (.doResolveD d (.promise d)) m =
      exec fuel (.guardedReject d selfErr) m := by
  simp [exec]

/-- `doResolve` on a handler result referencing another promise adopts it
(the out-of-heap branch cannot arise from the source). -/
lemma exec_doResolveD_promiseRef {m : Machine} {d j : Nat} (fuel : Nat)
    (hjd : j ≠ d) :
    exec (fuel + 1) (.doResolveD d (.promise j)) m =
      if j < m.cells.length then exec fuel (.adopt d ((m.cell j).st)) m
      else exec fuel (.guardedResolve d (.promise j)) m := by
  have hne : ¬ (Val.promise j = Val.promise d) := by simpa using hjd
  simp [exec, hne]

/-! ## C1 — `then` on a settled promise runs the handler inside the call -/

/-- C1: on an already-settled `SyncPromise`, `then(onFulfilled, onRejected)`
invokes the appropriate handler synchronously, within the `then` call
itself: for a receiver fulfilled with `v`, the returned machine's trace
shows the fulfillment handler invoked with `v` during the call, and the
promise `then` returns (the fresh cell `m.cells.length`) is already settled
according to the handler's outcome (`hresOutcome`) when `then` returns; the
symmetric statement holds for a rejected receiver. -/
theorem c1_then_on_settled_runs_handler_in_the_call
    (fuel : Nat) (m : Machine) (p : Nat) (f g : Val → HRes) (v : Val) :
    ((m.cell p).st = .fulfilled v →
      (thenOp (fuel + 4) p (.pure f) (.pure g) m).1 = m.cells.length
      ∧ (thenOp (fuel + 4) p (.pure f) (.pure g) m).2.trace
          = m.trace ++ [.run m.cells.length v]
      ∧ ((thenOp (fuel + 4) p (.pure f) (.pure g) m).2.cell
            m.cells.length).st = hresOutcome m m.cells.length (f v))
    ∧ ((m.cell p).st = .rejected v →
      (thenOp (fuel + 4) p (.pure f) (.pure g) m).1 = m.cells.length
      ∧ (thenOp (fuel + 4) p (.pure f) (.pure g) m).2.trace
          = m.trace ++ [.run m.cells.length v]
      ∧ ((thenOp (fuel + 4) p (.pure f) (.pure g) m).2.cell
            m.cells.length).st = hresOutcome m m.cells.length (g v)) := by
  have key : ∀ h : Val → HRes,
      (exec (fuel + 4) (.tryCatch m.cells.length (.pure h) v)
          (addCell m false)).trace = m.trace ++ [.run m.cells.length v]
      ∧ ((exec (fuel + 4) (.tryCatch m.cells.length (.pure h) v)
          (addCell m false)).cell m.cells.length).st
        = hresOutcome m m.cells.length (h v) := by
    intro h
    have hd1 : m.cells.length
        < (emit (addCell m false) (.run m.cells.length v)).cells.length := by
      simp
    have hst1 : ((emit (addCell m false) (.run m.cells.length v)).cell
        m.cells.length).st = .pending m.queues.length := by simp
    have hc1 : ((emit (addCell m false) (.run m.cells.length v)).cell
        m.cells.length).called = false := by simp
    have hq1 : (emit (addCell m false) (.run m.cells.length v)).queue
        m.queues.length = [] := by simp
    have hstep : exec (fuel + 4)
          (.tryCatch m.cells.length (.pure h) v) (addCell m false)
        = match h v with
          | .thr e => exec (fuel + 3) (.guardedReject m.cells.length e)
              (emit (addCell m false) (.run m.cells.length v))
          | .ret w => exec (fuel + 3) (.doResolveD m.cells.length w)
              (emit (addCell m false) (.run m.cells.length v)) := by
      simp only [exec]
    cases hres : h v with
    | thr e =>
      simp only [hres] at hstep
      rw [hstep, show fuel + 3 = fuel + 1 + 2 from rfl,
        exec_guardedReject_fresh (fuel + 1) hd1 hst1 hc1 hq1]
      refine ⟨by simp, ?_⟩
      rw [cell_setSt_self _ (by simpa using hd1)]
      simp [hresOutcome]
    | ret w =>
      simp only [hres] at hstep
      rw [hstep]
      by_cases hwd : w = .promise m.cells.length
      · rw [hwd, show fuel + 3 = fuel + 2 + 1 from rfl,
          exec_doResolveD_self (fuel + 2),
          show fuel + 2 = fuel + 2 from rfl,
          exec_guardedReject_fresh fuel hd1 hst1 hc1 hq1]
        refine ⟨by simp, ?_⟩
        rw [cell_setSt_self _ (by simpa using hd1)]
        simp [hresOutcome, hwd]
      · by_cases hpl : isPlain w = true
        · rw [show fuel + 3 = fuel + 2 + 1 from rfl,
            exec_doResolveD_plain (fuel + 2) hpl,
            exec_guardedResolve_fresh fuel hd1 hst1 hc1 hq1]
          refine ⟨by simp, ?_⟩
          rw [cell_setSt_self _ (by simpa using hd1)]
          have hout : hresOutcome m m.cells.length (.ret w) = .fulfilled w := by
            cases w <;> simp_all [hresOutcome, isPlain]
          rw [hout]
        · have hex : ∃ j, w = .promise j := by
            cases w <;> simp_all [isPlain]
          obtain ⟨j, rfl⟩ := hex
          have hjd : j ≠ m.cells.length := fun hh => hwd (by rw [hh])
          rw [show fuel + 3 = fuel + 2 + 1 from rfl,
            exec_doResolveD_promiseRef (fuel + 2) hjd]
          by_cases hj : j
              < (emit (addCell m false) (.run m.cells.length v)).cells.length
          · rw [if_pos hj]
            have hjlt : j < m.cells.length := by
              simp only [cells_emit, len_cells_addCell] at hj
              omega
            have hcj : (emit (addCell m false)
                (.run m.cells.length v)).cell j = m.cell j := by
              rw [cell_emit]
              exact cell_addCell_of_lt m false hjlt
            rw [hcj, show fuel + 2 = fuel + 1 + 1 from rfl,
              exec_adopt_fresh (fuel + 1) hst1 hq1]
            refine ⟨by simp, ?_⟩
            rw [cell_setSt_self _ (by simpa using hd1)]
            have hne : ¬ (Val.promise j = Val.promise m.cells.length) := by
              simpa using hjd
            simp [hresOutcome, hne, hjlt]
          · rw [if_neg hj]
            rw [exec_guardedResolve_fresh fuel hd1 hst1 hc1 hq1]
            refine ⟨by simp, ?_⟩
            rw [cell_setSt_self _ (by simpa using hd1)]
            have hge : ¬ (j < m.cells.length) := by
              simp only [cells_emit, len_cells_addCell] at hj
              omega
            have hne : ¬ (Val.promise j = Val.promise m.cells.length) := by
              simpa using hjd
            simp [hresOutcome, hne, hge]
  constructor
  · intro hst
    have hthen : thenOp (fuel + 4) p (.pure f) (.pure g) m
        = (m.cells.length, exec (fuel + 4)
            (.tryCatch m.cells.length (.pure f) v) (addCell m false)) := by
      simp [thenOp, hst]
    rw [hthen]
    exact ⟨rfl, (key f).1, (key f).2⟩
  · intro hst
    have hthen : thenOp (fuel + 4) p (.pure f) (.pure g) m
        = (m.cells.length, exec (fuel + 4)
            (.tryCatch m.cells.length (.pure g) v) (addCell m false)) := by
      simp [thenOp, hst]
    rw [hthen]
    exact ⟨rfl, (key g).1, (key g).2⟩

/-- Witness for C1 at a concrete promise fulfilled with `7` and the identity
handler. -/
theorem c1_then_on_settled_runs_handler_in_the_call_witness :
    (w1m.cell 0).st = .fulfilled (.num 7)
    ∧ ((thenOp (0 + 4) 0 (.pure .ret) (.pure .ret) w1m).1 = w1m.cells.length
      ∧ (thenOp (0 + 4) 0 (.pure .ret) (.pure .ret) w1m).2.trace
          = w1m.trace ++ [.run w1m.cells.length (.num 7)]
      ∧ ((thenOp (0 + 4) 0 (.pure .ret) (.pure .ret) w1m).2.cell
            w1m.cells.length).st
        = hresOutcome w1m w1m.cells.length (HRes.ret (.num 7))) :=
  ⟨rfl, (c1_then_on_settled_runs_handler_in_the_call 0 w1m 0 .ret .ret
    (.num 7)).1 rfl⟩

/-! ## C9 — resolving a promise with itself rejects with a `TypeError` -/

/-- C9: when the captured `resolve` is called with the promise itself, the
promise becomes rejected with the `TypeError` thrown by `doResolve` — it
neither stays pending nor fulfills.  The hypotheses describe any
still-unresolved promise (pending, guard unconsumed, queue as built by the
constructor). -/
theorem c9_resolve_self_rejects_with_type_error
    (fuel : Nat) (m : Machine) (p q : Nat)
    (hp : p < m.cells.length)
    (hst : (m.cell p).st = .pending q)
    (hc : (m.cell p).called = false)
    (hq : m.queue q = []) :
    ((resolveOp (fuel + 2) p (.promise p) m).cell p).st
      = .rejected selfErr := by
  have hres : resolveOp (fuel + 2) p (.promise p) m
      = exec (fuel + 2) (.adopt p (.rejected selfErr)) (setCalled m p) := by
    simp [resolveOp, hc]
  rw [hres, show fuel + 2 = fuel + 1 + 1 from rfl,
    exec_adopt_fresh (fuel + 1)
      (by rw [cell_setCalled_self m hp]; exact hst)
      (by simpa using hq),
    cell_setSt_self _ (by simpa using hp)]

/-- Witness for C9: a freshly constructed promise resolved with itself. -/
theorem c9_resolve_self_rejects_with_type_error_witness :
    (0 < (mkPending m0).2.cells.length
      ∧ ((mkPending m0).2.cell 0).st = .pending 0
      ∧ ((mkPending m0).2.cell 0).called = false
      ∧ (mkPending m0).2.queue 0 = [])
    ∧ ((resolveOp (0 + 2) 0 (.promise 0) (mkPending m0).2).cell 0).st
        = .rejected selfErr :=
  ⟨⟨by decide, by decide, by decide, rfl⟩,
    c9_resolve_self_rejects_with_type_error 0 (mkPending m0).2 0 0
      (by decide) (by decide) (by decide) rfl⟩

/-! ## C4 — `SyncPromise.all` (the undefined `promise` binding) -/

/-- C4 (the code at the failing input): `SyncPromise.all` over any non-empty
input rejects with the `ReferenceError` raised by the unbound identifier
`promise` on line 67 of sync-promise.js, instead of resolving with the
values in input order as specified; the empty input still resolves with an
empty array. -/
theorem c4_all_nonempty_rejects_reference_error :
    ((allOp 5 [.num 1, .num 2] m0).2.cell 0).st
        = .rejected (.jsError "ReferenceError: promise is not defined")
    ∧ ((allOp 5 ([] : List Val) m0).2.cell 0).st = .fulfilled .arrNil := by
  constructor
  · decide
  · decide

/-! ## C8 — `run` may only be invoked once -/

/-- C8: calling `run` on a transaction that has already run — including a
`versionchange` transaction, which is born already-running — throws the
error synchronously to the caller (the `Except.error` branch models the
synchronous `throw`; no promise is created on this path), and a successful
`run` marks the transaction so that a second `run` throws. -/
theorem c8_run_twice_throws_synchronously :
    (∀ t : Txn8, t.ran = true →
      run8 t = .error "Transaction has already run.")
    ∧ run8 (mkTxn8 "versionchange") = .error "Transaction has already run."
    ∧ ∀ t : Txn8, t.ran = false →
      run8 t = .ok { t with ran := true }
      ∧ run8 { t with ran := true }
          = .error "Transaction has already run." := by
  refine ⟨fun t ht => by simp [run8, ht], by simp [run8, mkTxn8],
    fun t ht => ?_⟩
  constructor
  · simp [run8, ht]
  · simp [run8]

/-- Witness for C8: a fresh `readwrite` transaction runs once and then
throws on the second `run`. -/
theorem c8_run_twice_throws_synchronously_witness :
    (mkTxn8 "readwrite").ran = false
    ∧ (run8 (mkTxn8 "readwrite") = .ok { mkTxn8 "readwrite" with ran := true }
      ∧ run8 { mkTxn8 "readwrite" with ran := true }
          = .error "Transaction has already run.") :=
  ⟨by decide,
    c8_run_twice_throws_synchronously.2.2 (mkTxn8 "readwrite") (by decide)⟩

/-! ## C2 — the run/completion join and recovered-value precedence

In `c2Setup 20 v` the callback's result has resolved to the plain value `v`
(cell 1 is fulfilled), yet the promise returned by `run` (cell 2) has
delivered nothing to its consumer (cell 4's observer): the only event is
the internal invocation of `run`'s own join handler.  Once the host fires
`oncomplete`, the completion promise resolves with the sentinel, the join
compares it against `this.sentinel` and hands the callback's `v` to the
observer.  If instead the completion path resolved with a recovery value
`w ≠ sentinel`, the join hands `w` — not `v` — to the observer. -/

set_option maxHeartbeats 2000000 in
/-- C2: with a callback resolved to `v`, (a) before the transaction's
completion promise settles, `run`'s promise has delivered nothing to its
consumer; (b) after the host's `oncomplete` (completion value = the
sentinel), the consumer observes exactly the callback's value `v`; (c) when
the completion promise instead resolved via an abort-recovery value
`w ≠ sentinel`, the consumer observes the recovered `w`, not `v`. -/
theorem c2_run_result_waits_for_completion_and_recovery_takes_precedence
    (v w : Val) (hv : isPlain v = true) (hw : isPlain w = true)
    (hws : w ≠ .sentinel) :
    (c2Setup 20 v).trace = [.run 2 v]
    ∧ (hostComplete 20 ⟨0⟩ (c2Setup 20 v)).trace
        = [.run 2 v, .run 3 .sentinel, .run 4 v, .obs 0 v]
    ∧ (hostAbortRecovered 20 ⟨0⟩ w (c2Setup 20 v)).trace
        = [.run 2 v, .run 3 w, .run 4 w, .obs 0 w] := by
  have hsetup : c2Setup 20 v = c2After v := by
    cases v
    case promise i => exact absurd hv (by simp [isPlain])
    all_goals rfl
  refine ⟨by rw [hsetup]; rfl, ?_, ?_⟩
  · rw [hsetup]
    cases v
    case promise i => exact absurd hv (by simp [isPlain])
    all_goals rfl
  · rw [hsetup]
    cases w
    case promise i => exact absurd hw (by simp [isPlain])
    case sentinel => exact absurd rfl hws
    all_goals rfl

/-- Witness for C2 at `v = 1`, `w = 5`. -/
theorem c2_run_result_waits_for_completion_witness :
    (isPlain (Val.num 1) = true ∧ isPlain (Val.num 5) = true
      ∧ (Val.num 5) ≠ .sentinel)
    ∧ ((c2Setup 20 (.num 1)).trace = [.run 2 (.num 1)]
      ∧ (hostComplete 20 ⟨0⟩ (c2Setup 20 (.num 1))).trace
          = [.run 2 (.num 1), .run 3 .sentinel, .run 4 (.num 1),
             .obs 0 (.num 1)]
      ∧ (hostAbortRecovered 20 ⟨0⟩ (.num 5) (c2Setup 20 (.num 1))).trace
          = [.run 2 (.num 1), .run 3 (.num 5), .run 4 (.num 5),
             .obs 0 (.num 5)]) :=
  ⟨⟨by decide, by decide, by decide⟩,
    c2_run_result_waits_for_completion_and_recovery_takes_precedence
      (.num 1) (.num 5) (by decide) (by decide) (by decide)⟩

/-! ## C5 — abort rejects unless a recovery handler is supplied -/

set_option maxHeartbeats 1000000 in
/-- C5: on `onabort`, a transaction constructed without an abort-recovery
handler has its completion promise rejected with the abort error; with a
recovery handler, the completion promise resolves with the handler's
result — immediately when the result is a plain value `w`, and
asynchronously when the result is itself a still-pending promise, in which
case consumers of the completion promise observe `w` once that promise
settles (part (iii), in the `c5AsyncSetup` scenario where the recovery
handler returned the pending promise 1 and cell 2 is a consumer's
deferred). -/
theorem c5_abort_rejects_unless_recovered
    (e w : Val) (hw : isPlain w = true) :
    ((hostAbortPlain 20 ⟨0⟩ e (mkTxn m0).2).cell 0).st = .rejected e
    ∧ ((hostAbortRecovered 20 ⟨0⟩ w (mkTxn m0).2).cell 0).st = .fulfilled w
    ∧ (resolveOp 20 1 w (c5AsyncSetup 20)).trace = [.run 2 w, .obs 0 w] := by
  have hsetup : c5AsyncSetup 20 = c5After := by rfl
  refine ⟨rfl, ?_, ?_⟩
  · cases w
    case promise i => exact absurd hw (by simp [isPlain])
    all_goals rfl
  · rw [hsetup]
    cases w
    case promise i => exact absurd hw (by simp [isPlain])
    all_goals rfl

/-! ## Cursor iteration lemmas -/

lemma iterStepLoop_nil (it : σ → CursorObj → IterStep × σ) (fuel : Nat)
    (s : σ) (cur : CursorObj) (tr : IterTrace) :
    iterStepLoop it fuel s [] cur tr = ([], cur, tr, s) := by
  cases fuel <;> rfl

lemma iterStepLoop_cons_stay {it : σ → CursorObj → IterStep × σ}
    {s s1 : σ} {r : Rec} {cur : CursorObj} {v : Val}
    (fuel : Nat) (rest : List Rec) (tr : IterTrace)
    (hstep : it s (snapAt cur r) = (⟨.stay, v⟩, s1)) :
    iterStepLoop it (fuel + 1) s (r :: rest) cur tr =
      ([v], snapAt cur r,
        ⟨tr.cursors.set 0 (snapAt cur r),
         tr.callLog ++ [(0, snapAt cur r)]⟩, s1) := by
  simp only [iterStepLoop, snapAt] at hstep ⊢
  rw [hstep]

lemma iterStepLoop_cons_go {it : σ → CursorObj → IterStep × σ}
    {s s1 : σ} {r : Rec} {cur : CursorObj} {v : Val} {n : Nat}
    (fuel : Nat) (rest : List Rec) (tr : IterTrace)
    (hstep : it s (snapAt cur r) = (⟨.go n, v⟩, s1)) :
    iterStepLoop it (fuel + 1) s (r :: rest) cur tr =
      ((iterStepLoop it fuel s1 (rest.drop n) (snapAt cur r)
          ⟨tr.cursors.set 0 (snapAt cur r),
           tr.callLog ++ [(0, snapAt cur r)]⟩).1.cons v,
       (iterStepLoop it fuel s1 (rest.drop n) (snapAt cur r)
          ⟨tr.cursors.set 0 (snapAt cur r),
           tr.callLog ++ [(0, snapAt cur r)]⟩).2) := by
  simp only [iterStepLoop, snapAt] at hstep ⊢
  rw [hstep]

/-- The loop does not depend on the recursion bound once it covers the
record list. -/
lemma iterStepLoop_fuel {it : σ → CursorObj → IterStep × σ} :
    ∀ fuel fuel1 (s : σ) (recs : List Rec) (cur : CursorObj)
      (tr : IterTrace), recs.length ≤ fuel → recs.length ≤ fuel1 →
      iterStepLoop it fuel s recs cur tr
        = iterStepLoop it fuel1 s recs cur tr := by
  intro fuel
  induction fuel with
  | zero =>
    intro fuel1 s recs cur tr h h1
    have : recs = [] := List.length_eq_zero.mp (Nat.le_zero.mp h)
    subst this
    rw [iterStepLoop_nil, iterStepLoop_nil]
  | succ f ih =>
    intro fuel1 s recs cur tr h h1
    cases recs with
    | nil => rw [iterStepLoop_nil, iterStepLoop_nil]
    | cons r rest =>
      cases fuel1 with
      | zero => simp at h1
      | succ f1 =>
        rcases hstep : it s (snapAt cur r) with ⟨⟨act, v⟩, s1⟩
        cases act with
        | stay =>
          rw [iterStepLoop_cons_stay f rest tr hstep,
            iterStepLoop_cons_stay f1 rest tr hstep]
        | go n =>
          rw [iterStepLoop_cons_go f rest tr hstep,
            iterStepLoop_cons_go f1 rest tr hstep]
          have hdl : (rest.drop n).length ≤ rest.length := by
            simp [List.length_drop]
          have hlen : (rest.drop n).length ≤ f := by
            simp at h
            omega
          have hlen1 : (rest.drop n).length ≤ f1 := by
            simp at h1
            omega
          rw [ih f1 s1 (rest.drop n) (snapAt cur r) _ hlen hlen1]

/-- The loop's results and final iterator state only depend on the cursor's
constant fields, not on its current position fields nor on the trace
accumulator. -/
lemma iterStepLoop_base {it : σ → CursorObj → IterStep × σ} :
    ∀ fuel (s : σ) (recs : List Rec) (cur cur1 : CursorObj)
      (tr tr1 : IterTrace),
      cur.transaction = cur1.transaction → cur.source = cur1.source →
      cur.direction = cur1.direction →
      (iterStepLoop it fuel s recs cur tr).1
          = (iterStepLoop it fuel s recs cur1 tr1).1
        ∧ (iterStepLoop it fuel s recs cur tr).2.2.2
          = (iterStepLoop it fuel s recs cur1 tr1).2.2.2 := by
  intro fuel
  induction fuel with
  | zero =>
    intro s recs cur cur1 tr tr1 ht hs hd
    cases recs <;> simp [iterStepLoop_nil, iterStepLoop]
  | succ f ih =>
    intro s recs cur cur1 tr tr1 ht hs hd
    cases recs with
    | nil => simp [iterStepLoop_nil]
    | cons r rest =>
      have hsnap : snapAt cur r = snapAt cur1 r := by
        simp [snapAt, ht, hs, hd]
      rcases hstep : it s (snapAt cur r) with ⟨⟨act, v⟩, s1⟩
      have hstep1 : it s (snapAt cur1 r) = (⟨act, v⟩, s1) := by
        rw [← hsnap]; exact hstep
      cases act with
      | stay =>
        rw [iterStepLoop_cons_stay f rest tr hstep,
          iterStepLoop_cons_stay f rest tr1 hstep1]
        exact ⟨rfl, rfl⟩
      | go n =>
        rw [iterStepLoop_cons_go f rest tr hstep,
          iterStepLoop_cons_go f rest tr1 hstep1]
        have := ih s1 (rest.drop n) (snapAt cur r) (snapAt cur1 r)
          ⟨tr.cursors.set 0 (snapAt cur r),
           tr.callLog ++ [(0, snapAt cur r)]⟩
          ⟨tr1.cursors.set 0 (snapAt cur1 r),
           tr1.callLog ++ [(0, snapAt cur1 r)]⟩
          (by simp [snapAt, ht]) (by simp [snapAt, hs])
          (by simp [snapAt, hd])
        exact ⟨by simp [this.1], this.2⟩

lemma iterate_nil (it : σ → CursorObj → IterStep × σ) (s : σ) (t src : Nat)
    (dir : Val) : iterate it s t src dir [] = ([], ⟨[], []⟩, s) := rfl

lemma iterate_cons_stay {it : σ → CursorObj → IterStep × σ} {s s1 : σ}
    {t src : Nat} {dir : Val} {r : Rec} {v : Val} (rest : List Rec)
    (hstep : it s (cursorAt t src dir r) = (⟨.stay, v⟩, s1)) :
    iterate it s t src dir (r :: rest)
      = ([v], ⟨[cursorAt t src dir r], [(0, cursorAt t src dir r)]⟩,
         s1) := by
  have hsnap : snapAt (⟨t, src, dir, .null, .null, .null⟩ : CursorObj) r
      = cursorAt t src dir r := rfl
  simp only [iterate]
  rw [show (r :: rest).length = rest.length + 1 from rfl,
    iterStepLoop_cons_stay rest.length rest _ (by rw [hsnap]; exact hstep)]
  simp [hsnap]

lemma iterStepLoop_results_canon {it : σ → CursorObj → IterStep × σ}
    (fuel : Nat) (s : σ) (recs : List Rec) {cur : CursorObj}
    {tr : IterTrace} (h : recs.length ≤ fuel) :
    (iterStepLoop it fuel s recs cur tr).1
      = (iterate it s cur.transaction cur.source cur.direction recs).1 := by
  cases recs with
  | nil => rw [iterStepLoop_nil]; rfl
  | cons r2 rest2 =>
    calc (iterStepLoop it fuel s (r2 :: rest2) cur tr).1
        = (iterStepLoop it (r2 :: rest2).length s (r2 :: rest2) cur tr).1 := by
          rw [iterStepLoop_fuel fuel ((r2 :: rest2).length) s (r2 :: rest2)
            cur tr h (Nat.le_refl _)]
      _ = (iterStepLoop it (r2 :: rest2).length s (r2 :: rest2)
            (⟨cur.transaction, cur.source, cur.direction, .null, .null,
              .null⟩ : CursorObj)
            ⟨[⟨cur.transaction, cur.source, cur.direction, .null, .null,
              .null⟩], []⟩).1 :=
          (iterStepLoop_base _ _ _ _ _ _ _ rfl rfl rfl).1
      _ = (iterate it s cur.transaction cur.source cur.direction
            (r2 :: rest2)).1 := rfl

lemma iterStepLoop_sigma_canon {it : σ → CursorObj → IterStep × σ}
    (fuel : Nat) (s : σ) (recs : List Rec) {cur : CursorObj}
    {tr : IterTrace} (h : recs.length ≤ fuel) :
    (iterStepLoop it fuel s recs cur tr).2.2.2
      = (iterate it s cur.transaction cur.source cur.direction recs).2.2 := by
  cases recs with
  | nil => rw [iterStepLoop_nil]; rfl
  | cons r2 rest2 =>
    calc (iterStepLoop it fuel s (r2 :: rest2) cur tr).2.2.2
        = (iterStepLoop it (r2 :: rest2).length s (r2 :: rest2)
            cur tr).2.2.2 := by
          rw [iterStepLoop_fuel fuel ((r2 :: rest2).length) s (r2 :: rest2)
            cur tr h (Nat.le_refl _)]
      _ = (iterStepLoop it (r2 :: rest2).length s (r2 :: rest2)
            (⟨cur.transaction, cur.source, cur.direction, .null, .null,
              .null⟩ : CursorObj)
            ⟨[⟨cur.transaction, cur.source, cur.direction, .null, .null,
              .null⟩], []⟩).2.2.2 :=
          (iterStepLoop_base _ _ _ _ _ _ _ rfl rfl rfl).2
      _ = (iterate it s cur.transaction cur.source cur.direction
            (r2 :: rest2)).2.2 := rfl

lemma iterate_cons_go {it : σ → CursorObj → IterStep × σ} {s s1 : σ}
    {t src : Nat} {dir : Val} {r : Rec} {v : Val} {n : Nat}
    (rest : List Rec)
    (hstep : it s (cursorAt t src dir r) = (⟨.go n, v⟩, s1)) :
    (iterate it s t src dir (r :: rest)).1
        = v :: (iterate it s1 t src dir (rest.drop n)).1
    ∧ (iterate it s t src dir (r :: rest)).2.2
        = (iterate it s1 t src dir (rest.drop n)).2.2 := by
  have hsnap : snapAt (⟨t, src, dir, .null, .null, .null⟩ : CursorObj) r
      = cursorAt t src dir r := rfl
  have hlen : (rest.drop n).length ≤ rest.length := by
    simp [List.length_drop]
  have hgo := @iterStepLoop_cons_go _ it _ _ _ _ _ _ rest.length rest
    (⟨[⟨t, src, dir, .null, .null, .null⟩], []⟩ : IterTrace)
    (by rw [hsnap]; exact hstep)
  constructor
  · simp only [iterate, show (r :: rest).length = rest.length + 1 from rfl,
      hgo]
    rw [iterStepLoop_results_canon rest.length s1 (rest.drop n) hlen]
    simp only [snapAt]
    rfl
  · simp only [iterate, show (r :: rest).length = rest.length + 1 from rfl,
      hgo]
    rw [iterStepLoop_sigma_canon rest.length s1 (rest.drop n) hlen]
    simp only [snapAt]
    rfl

/-- A non-empty range always yields at least one result. -/
lemma iterate_cons_ne_nil {it : σ → CursorObj → IterStep × σ} {s : σ}
    {t src : Nat} {dir : Val} {r : Rec} (rest : List Rec) :
    (iterate it s t src dir (r :: rest)).1 ≠ [] := by
  rcases hstep : it s (cursorAt t src dir r) with ⟨⟨act, v⟩, s1⟩
  cases act with
  | stay => rw [iterate_cons_stay rest hstep]; simp
  | go n => rw [(iterate_cons_go rest hstep).1]; simp

/-- If `while`'s preempt flag ends up set, the raw results are non-empty
(the preempting `false` is their last element). -/
lemma iterate_pre_nonempty {it : σ → CursorObj → IterStep × σ} {s : σ}
    {t src : Nat} {dir : Val} (recs : List Rec)
    (hpre : (iterate (autoAdvance it) (s, false) t src dir recs).2.2.2
        = true) :
    (iterate (autoAdvance it) (s, false) t src dir recs).1 ≠ [] := by
  cases recs with
  | nil => simp [iterate] at hpre
  | cons r rest => exact iterate_cons_ne_nil rest

lemma autoAdvance_stay_false {it : σ → CursorObj → IterStep × σ} {s s1 : σ}
    {c : CursorObj} (pre : Bool)
    (hstep : it s c = (⟨.stay, .bool false⟩, s1)) :
    autoAdvance it (s, pre) c = (⟨.stay, .bool false⟩, (s1, true)) := by
  simp [autoAdvance, hstep]

lemma autoAdvance_stay_other {it : σ → CursorObj → IterStep × σ} {s s1 : σ}
    {c : CursorObj} {v : Val} (pre : Bool)
    (hstep : it s c = (⟨.stay, v⟩, s1)) (hv : v ≠ .bool false) :
    autoAdvance it (s, pre) c = (⟨.go 0, v⟩, (s1, pre)) := by
  simp [autoAdvance, hstep, hv]

lemma autoAdvance_go {it : σ → CursorObj → IterStep × σ} {s s1 : σ}
    {c : CursorObj} {v : Val} {n : Nat} (pre : Bool)
    (hstep : it s c = (⟨.go n, v⟩, s1)) :
    autoAdvance it (s, pre) c = (⟨.go n, v⟩, (s1, pre)) := by
  simp [autoAdvance, hstep]

/-- Composing a `while` step that auto-continues or explicitly advances:
the step's value is collected and the rest of the run is the `while` over
the remaining records. -/
lemma whileOp_cons_advance {it : σ → CursorObj → IterStep × σ} {s s1 : σ}
    {t src : Nat} {dir : Val} {r : Rec} {v : Val} {k : Nat}
    (rest : List Rec)
    (hw : autoAdvance it (s, false) (cursorAt t src dir r)
        = (⟨.go k, v⟩, (s1, false))) :
    (whileOp it s t src dir (r :: rest)).1
      = v :: (whileOp it s1 t src dir (rest.drop k)).1 := by
  have hgo := @iterate_cons_go _ (autoAdvance it) _ _ _ _ _ _ _ _ rest hw
  simp only [whileOp]
  rw [hgo.1, hgo.2]
  by_cases hpre :
      (iterate (autoAdvance it) (s1, false) t src dir
        (rest.drop k)).2.2.2 = true
  · rw [if_pos hpre, if_pos hpre]
    rw [List.dropLast_cons_of_ne_nil (iterate_pre_nonempty _ hpre)]
  · rw [if_neg hpre, if_neg hpre]

lemma getLast?_cons_ne {α : Type} (a : α) {l : List α} (h : l ≠ []) :
    (a :: l).getLast? = l.getLast? := by
  cases l with
  | nil => exact absurd rfl h
  | cons b l2 => simp [List.getLast?]

lemma visitedRecs_cons_stay {it : σ → CursorObj → IterStep × σ}
    {s s1 : σ} {t src : Nat} {dir : Val} {r : Rec} {v : Val}
    (fuel : Nat) (rest : List Rec)
    (hstep : it s (cursorAt t src dir r) = (⟨.stay, v⟩, s1)) :
    visitedRecs it t src dir (fuel + 1) s (r :: rest) = [r] := by
  simp only [visitedRecs, cursorAt] at hstep ⊢
  rw [hstep]

lemma visitedRecs_cons_go {it : σ → CursorObj → IterStep × σ}
    {s s1 : σ} {t src : Nat} {dir : Val} {r : Rec} {v : Val} {n : Nat}
    (fuel : Nat) (rest : List Rec)
    (hstep : it s (cursorAt t src dir r) = (⟨.go n, v⟩, s1)) :
    visitedRecs it t src dir (fuel + 1) s (r :: rest)
      = r :: visitedRecs it t src dir fuel s1 (rest.drop n) := by
  simp only [visitedRecs, cursorAt] at hstep ⊢
  rw [hstep]

/-- The allocation/invocation bookkeeping of the loop: the call log extends
by one entry per visited record, each passing cursor index 0 with the
constant fields of the base cursor and that record's position fields; the
single heap slot ends holding the last visited snapshot. -/
lemma iterStepLoop_trace {it : σ → CursorObj → IterStep × σ} :
    ∀ fuel (s : σ) (recs : List Rec) (cur : CursorObj) (tr : IterTrace),
      recs.length ≤ fuel →
      (iterStepLoop it fuel s recs cur tr).2.2.1.callLog
          = tr.callLog
            ++ (visitedRecs it cur.transaction cur.source cur.direction fuel
                s recs).map (fun rr => (0, snapAt cur rr))
      ∧ (recs = [] →
          (iterStepLoop it fuel s recs cur tr).2.2.1.cursors = tr.cursors)
      ∧ (recs ≠ [] → ∃ rv,
          (visitedRecs it cur.transaction cur.source cur.direction fuel s
            recs).getLast? = some rv
          ∧ (iterStepLoop it fuel s recs cur tr).2.2.1.cursors
              = tr.cursors.set 0 (snapAt cur rv)) := by
  intro fuel
  induction fuel with
  | zero =>
    intro s recs cur tr h
    have : recs = [] := List.length_eq_zero.mp (Nat.le_zero.mp h)
    subst this
    refine ⟨by simp [iterStepLoop_nil, visitedRecs], fun _ => ?_,
      fun hne => absurd rfl hne⟩
    rw [iterStepLoop_nil]
  | succ f ih =>
    intro s recs cur tr h
    cases recs with
    | nil =>
      refine ⟨by simp [iterStepLoop_nil, visitedRecs], fun _ => ?_,
        fun hne => absurd rfl hne⟩
      rw [iterStepLoop_nil]
    | cons r rest =>
      have hcur : cursorAt cur.transaction cur.source cur.direction r
          = snapAt cur r := rfl
      rcases hstep : it s (snapAt cur r) with ⟨⟨act, v⟩, s1⟩
      have hstep1 : it s
          (cursorAt cur.transaction cur.source cur.direction r)
          = (⟨act, v⟩, s1) := by rw [hcur]; exact hstep
      cases act with
      | stay =>
        rw [iterStepLoop_cons_stay f rest tr hstep,
          visitedRecs_cons_stay f rest hstep1]
        exact ⟨rfl, fun hc => absurd hc (by simp), fun _ => ⟨r, rfl, rfl⟩⟩
      | go n =>
        have hdl : (rest.drop n).length ≤ f := by
          have : (rest.drop n).length ≤ rest.length := by
            simp [List.length_drop]
          simp at h
          omega
        rw [iterStepLoop_cons_go f rest tr hstep,
          visitedRecs_cons_go f rest hstep1]
        have hsnapfields :
            visitedRecs it (snapAt cur r).transaction (snapAt cur r).source
                (snapAt cur r).direction f s1 (rest.drop n)
              = visitedRecs it cur.transaction cur.source cur.direction f s1
                (rest.drop n) := rfl
        have := ih s1 (rest.drop n) (snapAt cur r)
          ⟨tr.cursors.set 0 (snapAt cur r),
           tr.callLog ++ [(0, snapAt cur r)]⟩ hdl
        rw [hsnapfields] at this
        refine ⟨?_, fun hc => absurd hc (by simp), fun _ => ?_⟩
        · rw [this.1]
          have : ∀ rr, snapAt (snapAt cur r) rr = snapAt cur rr :=
            fun rr => rfl
          simp [this]
        · cases hrd : rest.drop n with
          | nil =>
            rw [hrd] at this
            refine ⟨r, by simp [visitedRecs], ?_⟩
            rw [iterStepLoop_nil]
          | cons r2 rest2 =>
            rw [hrd] at this
            obtain ⟨rv, hlast, hcurs⟩ := this.2.2 (by simp)
            have hvne : visitedRecs it cur.transaction cur.source
                cur.direction f s1 (r2 :: rest2) ≠ [] := by
              intro hemp
              rw [hemp] at hlast
              simp at hlast
            refine ⟨rv, ?_, ?_⟩
            · rw [getLast?_cons_ne r hvne]
              exact hlast
            · rw [hcurs]
              have hsnap2 : snapAt (snapAt cur r) rv = snapAt cur rv := rfl
              rw [hsnap2]
              simp [List.set_set]

/-! ## C7 — `iterate`: stop on no-advance, end-of-range resolution -/

/-- C7: a characterization of `iterate` one step at a time.  (i) On an
empty range the iteration resolves with the empty sequence and the iterator
is never invoked (empty call log).  (ii) If at a position the iterator
neither continues nor advances (`stay` — the request's `readyState` is
still `'done'` after its result settles), the iteration terminates after
that step: its resolved value `v` is still collected as the last element,
the iterator is invoked for that position only, and no further advance is
issued.  (iii) If the iterator advances past the remaining records, the
recursion reaches the empty range and case (i) resolves with what was
collected.  Together the three equations determine `iterate` completely; a
step at any depth is governed by the same equations via (iii). -/
theorem c7_iterate_no_advance_terminates_and_end_of_range_resolves
    (it : σ → CursorObj → IterStep × σ) (s s1 : σ) (t src : Nat) (dir : Val)
    (r : Rec) (rest : List Rec) (v : Val) (n : Nat) :
    iterate it s t src dir [] = ([], ⟨[], []⟩, s)
    ∧ (it s (cursorAt t src dir r) = (⟨.stay, v⟩, s1) →
        iterate it s t src dir (r :: rest)
          = ([v], ⟨[cursorAt t src dir r], [(0, cursorAt t src dir r)]⟩, s1))
    ∧ (it s (cursorAt t src dir r) = (⟨.go n, v⟩, s1) →
        (iterate it s t src dir (r :: rest)).1
          = v :: (iterate it s1 t src dir (rest.drop n)).1) :=
  ⟨rfl, fun h => iterate_cons_stay rest h,
    fun h => (iterate_cons_go rest h).1⟩

/-- Witness for C7: an iterator that stays at the first of two records
collects exactly that step's value and stops. -/
theorem c7_iterate_no_advance_terminates_witness :
    constStay () (cursorAt 0 0 .null rec1) = (⟨.stay, .null⟩, ())
    ∧ iterate constStay () 0 0 .null [rec1, rec2]
        = ([.null], ⟨[cursorAt 0 0 .null rec1],
            [(0, cursorAt 0 0 .null rec1)]⟩, ()) :=
  ⟨rfl,
    (c7_iterate_no_advance_terminates_and_end_of_range_resolves constStay
      () () 0 0 .null rec1 [rec2] .null 0).2.1 rfl⟩

/-! ## C6 — `while`: auto-advance unless the result is exactly `false` -/

/-- C6: a characterization of `while` one step at a time.  (i) The empty
range resolves with no results and the preempt flag clear.  (ii) A step
whose iterator did not explicitly advance (the request's `readyState` is
still `'done'` after the result settles) and whose result is exactly the
boolean `false` stops the iteration, and that final `false` is removed from
the results.  (iii) Such a step with any other result automatically issues
`cursor.continue()` and iteration proceeds, the value collected.  (iv) A
step that did explicitly advance proceeds with its value collected — even
when that value is `false` (the `v` in the equation is unconstrained), so
an explicit advance neither stops iteration nor loses the value. -/
theorem c6_while_auto_advances_unless_result_is_false
    (it : σ → CursorObj → IterStep × σ) (s s1 : σ) (t src : Nat) (dir : Val)
    (r : Rec) (rest : List Rec) (v : Val) (n : Nat) :
    whileOp it s t src dir [] = ([], ⟨[], []⟩, (s, false))
    ∧ (it s (cursorAt t src dir r) = (⟨.stay, .bool false⟩, s1) →
        (whileOp it s t src dir (r :: rest)).1 = []
        ∧ (whileOp it s t src dir (r :: rest)).2.2 = (s1, true))
    ∧ (it s (cursorAt t src dir r) = (⟨.stay, v⟩, s1) → v ≠ .bool false →
        (whileOp it s t src dir (r :: rest)).1
          = v :: (whileOp it s1 t src dir rest).1)
    ∧ (it s (cursorAt t src dir r) = (⟨.go n, v⟩, s1) →
        (whileOp it s t src dir (r :: rest)).1
          = v :: (whileOp it s1 t src dir (rest.drop n)).1) := by
  refine ⟨rfl, fun h => ?_, fun h hv => ?_, fun h => ?_⟩
  · have hw := @autoAdvance_stay_false _ it _ _ _ false h
    constructor
    · simp only [whileOp, iterate_cons_stay rest hw]
      rfl
    · simp only [whileOp, iterate_cons_stay rest hw]
  · have hw := @autoAdvance_stay_other _ it _ _ _ _ false h hv
    have := whileOp_cons_advance rest hw
    simpa using this
  · have hw := @autoAdvance_go _ it _ _ _ _ _ false h
    exact whileOp_cons_advance rest hw

/-- Witness for C6, exercising all three step shapes: a plain `false` stops
with the `false` discarded; a plain non-`false` auto-continues; an explicit
advance returning `false` continues with the `false` retained. -/
theorem c6_while_auto_advances_unless_result_is_false_witness :
    (constStayFalse () (cursorAt 0 0 .null rec1)
        = (⟨.stay, .bool false⟩, ())
      ∧ (whileOp constStayFalse () 0 0 .null [rec1, rec2]).1 = []
      ∧ (whileOp constStayFalse () 0 0 .null [rec1, rec2]).2.2
          = ((), true))
    ∧ (constStay () (cursorAt 0 0 .null rec1) = (⟨.stay, .null⟩, ())
      ∧ (whileOp constStay () 0 0 .null [rec1, rec2]).1
          = .null :: (whileOp constStay () 0 0 .null [rec2]).1)
    ∧ (constGoFalse () (cursorAt 0 0 .null rec1)
        = (⟨.go 0, .bool false⟩, ())
      ∧ (whileOp constGoFalse () 0 0 .null [rec1, rec2]).1
          = .bool false :: (whileOp constGoFalse () 0 0 .null
              ([rec2].drop 0)).1) :=
  ⟨⟨rfl, (c6_while_auto_advances_unless_result_is_false constStayFalse
      () () 0 0 .null rec1 [rec2] .null 0).2.1 rfl⟩,
   ⟨rfl, (c6_while_auto_advances_unless_result_is_false constStay
      () () 0 0 .null rec1 [rec2] .null 0).2.2.1 rfl (by decide)⟩,
   ⟨rfl, (c6_while_auto_advances_unless_result_is_false constGoFalse
      () () 0 0 .null rec1 [rec2] (.bool false) 0).2.2.2 rfl⟩⟩

/-! ## C10 — one `Cursor` instance, mutated in place -/

/-- C10 (amended to non-empty ranges): over a non-empty range, `iterate`
allocates exactly one `Cursor` object; every iterator invocation receives
that same instance (heap index 0), whose `transaction`, `source` and
`direction` fields are those set at construction and never modified, and
whose `key`/`primaryKey`/`value` fields are overwritten in place with the
visited record's snapshots before each invocation (the call log equals the
visited records mapped through `cursorAt`); at the end the single heap slot
holds the last visited snapshot, so a reference retained from an earlier
step observes the later steps' position.  `while` drives the same
machinery, so its cursor trace is exactly that of `iterate` under the
auto-advancing wrapper.  (For an empty range no `Cursor` is created at
all — see the counterexample.) -/
theorem c10_single_cursor_instance_mutated_in_place
    (it : σ → CursorObj → IterStep × σ) (s : σ) (t src : Nat) (dir : Val)
    (r : Rec) (rest : List Rec) :
    ((iterate it s t src dir (r :: rest)).2.1.cursors.length = 1
      ∧ (iterate it s t src dir (r :: rest)).2.1.callLog
          = (visitedRecs it t src dir (r :: rest).length s (r :: rest)).map
              (fun rr => (0, cursorAt t src dir rr))
      ∧ ∃ rv, (visitedRecs it t src dir (r :: rest).length s
            (r :: rest)).getLast? = some rv
          ∧ (iterate it s t src dir (r :: rest)).2.1.cursors
              = [cursorAt t src dir rv])
    ∧ (whileOp it s t src dir (r :: rest)).2.1
        = (iterate (autoAdvance it) (s, false) t src dir (r :: rest)).2.1
        := by
  have htr := @iterStepLoop_trace _ it ((r :: rest).length) s (r :: rest)
    (⟨t, src, dir, .null, .null, .null⟩ : CursorObj)
    (⟨[⟨t, src, dir, .null, .null, .null⟩], []⟩ : IterTrace)
    (Nat.le_refl _)
  have hcc : ∀ rr : Rec,
      snapAt (⟨t, src, dir, .null, .null, .null⟩ : CursorObj) rr
        = cursorAt t src dir rr := fun _ => rfl
  have hproj : (iterate it s t src dir (r :: rest)).2.1
      = (iterStepLoop it (r :: rest).length s (r :: rest)
          (⟨t, src, dir, .null, .null, .null⟩ : CursorObj)
          (⟨[⟨t, src, dir, .null, .null, .null⟩], []⟩ : IterTrace)).2.2.1
      := rfl
  obtain ⟨rv, hlast, hcurs⟩ := htr.2.2 (by simp)
  have hcurs1 : (iterate it s t src dir (r :: rest)).2.1.cursors
      = [cursorAt t src dir rv] := by
    rw [hproj, hcurs, hcc]
    rfl
  refine ⟨⟨by rw [hcurs1]; rfl, ?_, ⟨rv, hlast, hcurs1⟩⟩, rfl⟩
  rw [hproj, htr.1]
  simp [hcc]

/-- The counterexample to C10 as stated: for an empty range, `iterate` (and
hence `while`) returns before `new Cursor(...)` is reached, so no `Cursor`
object is created at all — not exactly one. -/
theorem c10_counterexample_empty_range_allocates_no_cursor :
    (iterate constStay () 0 0 .null ([] : List Rec)).2.1.cursors.length = 0
    ∧ (whileOp constStay () 0 0 .null ([] : List Rec)).2.1.cursors.length
        = 0 :=
  ⟨rfl, rfl⟩

/-- Witness for C5 at an abort error object and recovery value `5`. -/
theorem c5_abort_rejects_unless_recovered_witness :
    isPlain (Val.num 5) = true
    ∧ (((hostAbortPlain 20 ⟨0⟩ (.jsError "AbortError")
          (mkTxn m0).2).cell 0).st = .rejected (.jsError "AbortError")
      ∧ ((hostAbortRecovered 20 ⟨0⟩ (.num 5) (mkTxn m0).2).cell 0).st
          = .fulfilled (.num 5)
      ∧ (resolveOp 20 1 (.num 5) (c5AsyncSetup 20)).trace
          = [.run 2 (.num 5), .obs 0 (.num 5)]) :=
  ⟨by decide,
    c5_abort_rejects_unless_recovered (.jsError "AbortError") (.num 5)
      (by decide)⟩

/-! ## C3 — counting and membership toolbox -/

lemma occCount_eq_sum_cnt (qs : List (List Reaction)) (d : Nat) :
    occCount qs d = (qs.map fun l => cnt l d).sum := rfl

lemma cnt_nil (d : Nat) : cnt [] d = 0 := rfl

lemma cnt_append (l1 l2 : List Reaction) (d : Nat) :
    cnt (l1 ++ l2) d = cnt l1 d + cnt l2 d := by
  simp [cnt, List.countP_append]

lemma cnt_pos_of_mem {l : List Reaction} {r : Reaction} (h : r ∈ l) :
    1 ≤ cnt l r.d :=
  List.countP_pos.2 ⟨r, h, by simp⟩

lemma count_map_d (l : List Reaction) (d : Nat) :
    (l.map Reaction.d).count d = cnt l d := by
  induction l with
  | nil => rfl
  | cons r t ih =>
    simp only [cnt, List.countP_cons]
    simp only [cnt] at ih
    simp only [List.map_cons, List.count_cons, ih]
    by_cases h : r.d = d
    · simp [h]
    · simp [h]

lemma sum_map_set {α : Type} (f : α → Nat) (d0 : α) :
    ∀ (l : List α) (i : Nat) (a : α), i < l.length →
    ((l.set i a).map f).sum + f (l.getD i d0) = (l.map f).sum + f a := by
  intro l
  induction l with
  | nil => intro i a h; simp at h
  | cons hd tl ih =>
    intro i a h
    cases i with
    | zero => simp [List.set]; omega
    | succ n =>
      have h2 : n < tl.length := by simpa using h
      have h3 := ih n a h2
      simp only [List.set, List.map_cons, List.sum_cons, List.getD_cons_succ]
      omega

lemma occCount_setQueue (m : Machine) {q : Nat} (rs : List Reaction)
    (d : Nat) (h : q < m.queues.length) :
    occCount (setQueue m q rs).queues d + cnt (m.queue q) d
      = occCount m.queues d + cnt rs d := by
  have h1 := sum_map_set (fun l => cnt l d) [] m.queues q rs h
  simpa [occCount_eq_sum_cnt, setQueue, Machine.queue] using h1

lemma occCount_pushQ (m : Machine) {q : Nat} (rs : List Reaction) (d : Nat)
    (h : q < m.queues.length) :
    occCount (pushQ m q rs).queues d = occCount m.queues d + cnt rs d := by
  have h1 := occCount_setQueue m (m.queue q ++ rs) d h
  rw [cnt_append] at h1
  unfold pushQ
  omega

lemma occCount_clear (m : Machine) {q : Nat} (d : Nat)
    (h : q < m.queues.length) :
    occCount (setQueue m q []).queues d + cnt (m.queue q) d
      = occCount m.queues d := by
  have h1 := occCount_setQueue m [] d h
  simpa [cnt_nil] using h1

lemma occCount_addCell (m : Machine) (e : Bool) (d : Nat) :
    occCount (addCell m e).queues d = occCount m.queues d := by
  simp [occCount, addCell]

lemma queue_eq_nil_of_ge {m : Machine} {q : Nat}
    (h : m.queues.length ≤ q) : m.queue q = [] :=
  List.getD_eq_default _ _ h

lemma queue_lt_of_ne_nil {m : Machine} {q : Nat} (h : m.queue q ≠ []) :
    q < m.queues.length := by
  by_contra hq
  exact h (queue_eq_nil_of_ge (le_of_not_lt hq))

lemma le_occCount_of_mem {m : Machine} {q : Nat} {r : Reaction}
    (h : r ∈ m.queue q) : 1 ≤ occCount m.queues r.d := by
  have hq : q < m.queues.length := queue_lt_of_ne_nil (by
    intro hnil; rw [hnil] at h; cases h)
  have hmemq : m.queue q ∈ m.queues := by
    have h1 : m.queue q = m.queues[q] := by
      simp [Machine.queue, List.getD_eq_getElem?_getD,
        List.getElem?_eq_getElem hq]
    rw [h1]
    exact List.getElem_mem _
  have h1 : 1 ≤ cnt (m.queue q) r.d := cnt_pos_of_mem h
  have h2 : cnt (m.queue q) r.d ≤ occCount m.queues r.d := by
    rw [occCount_eq_sum_cnt]
    exact List.single_le_sum (fun x _ => Nat.zero_le x) _
      (List.mem_map_of_mem _ hmemq)
  omega

lemma cnt_le_occCount {m : Machine} {q : Nat} (d : Nat)
    (hq : q < m.queues.length) :
    cnt (m.queue q) d ≤ occCount m.queues d := by
  have hmemq : m.queue q ∈ m.queues := by
    have h1 : m.queue q = m.queues[q] := by
      simp [Machine.queue, List.getD_eq_getElem?_getD,
        List.getElem?_eq_getElem hq]
    rw [h1]
    exact List.getElem_mem _
  rw [occCount_eq_sum_cnt]
  exact List.single_le_sum (fun x _ => Nat.zero_le x) _
    (List.mem_map_of_mem _ hmemq)

lemma occCount_eq_zero_of_bound {m : Machine}
    (hb : ∀ q r, r ∈ m.queue q → r.d < m.cells.length) {d : Nat}
    (hd : m.cells.length ≤ d) : occCount m.queues d = 0 := by
  rw [occCount_eq_sum_cnt]
  apply List.sum_eq_zero
  intro x hx
  obtain ⟨l, hl, rfl⟩ := List.mem_map.1 hx
  obtain ⟨q, hq, hlq⟩ := List.mem_iff_getElem.1 hl
  have hql : m.queue q = l := by
    simp [Machine.queue, List.getD_eq_getElem?_getD,
      List.getElem?_eq_getElem hq, hlq]
  simp only [cnt]
  apply List.countP_eq_zero.2
  intro r hr
  have h1 := hb q r (by rw [hql]; exact hr)
  simp
  omega

lemma runCount_append (t1 t2 : List Ev) (d : Nat) :
    runCount (t1 ++ t2) d = runCount t1 d + runCount t2 d := by
  simp [runCount, List.countP_append]

lemma runCount_run (d1 : Nat) (a : Val) (d : Nat) :
    runCount [.run d1 a] d = if d1 = d then 1 else 0 := by
  by_cases h : d1 = d <;> simp [runCount, List.countP_cons, h]

lemma runCount_obs (tg : Nat) (a : Val) (d : Nat) :
    runCount [.obs tg a] d = 0 := by
  simp [runCount, List.countP_cons]

lemma runCount_pos_of_mem {tr : List Ev} {d : Nat} {a : Val}
    (h : Ev.run d a ∈ tr) : 1 ≤ runCount tr d :=
  List.countP_pos.2 ⟨_, h, by simp⟩

lemma runCount_eq_zero_of_bound {m : Machine}
    (hb : ∀ d1 v, Ev.run d1 v ∈ m.trace → d1 < m.cells.length) {d : Nat}
    (hd : m.cells.length ≤ d) : runCount m.trace d = 0 := by
  simp only [runCount]
  apply List.countP_eq_zero.2
  intro e he
  cases e with
  | run d1 v =>
    have h1 := hb d1 v he
    simp
    omega
  | obs tg v => simp

/-! ## C3 — extension and freshness plumbing -/

lemma isPending_iff {s : St} : s.isPending = true ↔ ∃ q, s = .pending q := by
  cases s <;> simp [St.isPending]

lemma not_settled_of_pending {s : St} (h : s.isPending = true) :
    s.isSettled = false := by
  cases s <;> simp_all [St.isPending, St.isSettled]

lemma lt_of_settled {m : Machine} {p : Nat}
    (h : (m.cell p).st.isSettled = true) : p < m.cells.length := by
  by_contra hp
  have h1 : m.cell p = ⟨.pending 0, true, false⟩ :=
    List.getD_eq_default _ _ (le_of_not_lt hp)
  rw [h1] at h
  simp [St.isSettled] at h

lemma lt_of_not_called {m : Machine} {p : Nat}
    (h : (m.cell p).called = false) : p < m.cells.length := by
  by_contra hp
  have h1 : m.cell p = ⟨.pending 0, true, false⟩ :=
    List.getD_eq_default _ _ (le_of_not_lt hp)
  rw [h1] at h
  simp at h

lemma lt_of_ext {m : Machine} {p : Nat}
    (h : (m.cell p).ext = true) : p < m.cells.length := by
  by_contra hp
  have h1 : m.cell p = ⟨.pending 0, true, false⟩ :=
    List.getD_eq_default _ _ (le_of_not_lt hp)
  rw [h1] at h
  simp at h

lemma mext_refl (m : Machine) : MExt m m :=
  ⟨rfl, rfl, fun _ _ => rfl, ⟨[], by simp⟩⟩

lemma mext_trans {m1 m2 m3 : Machine} (a : MExt m1 m2) (b : MExt m2 m3) :
    MExt m1 m3 := by
  refine ⟨b.cellsLen.trans a.cellsLen, b.queuesLen.trans a.queuesLen,
    ?_, ?_⟩
  · intro p hp
    have h2 := a.settledKeep p hp
    have h3 : (m2.cell p).st.isSettled = true := by rw [h2]; exact hp
    rw [b.settledKeep p h3, h2]
  · obtain ⟨t1, h1⟩ := a.traceExt
    obtain ⟨t2, h2⟩ := b.traceExt
    exact ⟨t1 ++ t2, by rw [h2, h1, List.append_assoc]⟩

lemma mext_emit (m : Machine) (e : Ev) : MExt m (emit m e) :=
  ⟨rfl, rfl, fun _ _ => rfl, ⟨[e], rfl⟩⟩

lemma mext_setQueue (m : Machine) (q : Nat) (rs : List Reaction) :
    MExt m (setQueue m q rs) :=
  ⟨rfl, by simp, fun _ _ => rfl, ⟨[], by simp⟩⟩

lemma mext_pushQ (m : Machine) (q : Nat) (rs : List Reaction) :
    MExt m (pushQ m q rs) :=
  mext_setQueue m q _

@[simp] lemma len_queues_pushQ (m : Machine) (q : Nat)
    (rs : List Reaction) :
    (pushQ m q rs).queues.length = m.queues.length := by
  simp [pushQ]

lemma mext_setSt_pending {m : Machine} {p : Nat} (st : St)
    (hpend : (m.cell p).st.isPending = true) : MExt m (setSt m p st) := by
  refine ⟨by simp, rfl, ?_, ⟨[], by simp⟩⟩
  intro p1 hp1
  by_cases h : p1 = p
  · subst h
    rw [not_settled_of_pending hpend] at hp1
    cases hp1
  · exact cell_setSt_other m h

lemma mext_setCalled {m : Machine} {p : Nat}
    (hpend : (m.cell p).st.isPending = true) : MExt m (setCalled m p) := by
  refine ⟨by simp, rfl, ?_, ⟨[], by simp⟩⟩
  intro p1 hp1
  by_cases h : p1 = p
  · subst h
    rw [not_settled_of_pending hpend] at hp1
    cases hp1
  · exact cell_setCalled_other m h

lemma freshKeep_refl {m : Machine} {p : Nat} (h : Fresh m p) :
    FreshKeep m m p := ⟨rfl, h.2.2.1, h.2.2.2⟩

lemma fresh_of_keep {m m1 : Machine} {p : Nat} (hf : Fresh m p)
    (hk : FreshKeep m m1 p) : Fresh m1 p :=
  ⟨by rw [hk.1]; exact hf.1, by rw [hk.1]; exact hf.2.1, hk.2.1, hk.2.2⟩

lemma freshKeep_trans {m m1 m2 : Machine} {p : Nat}
    (a : FreshKeep m m1 p) (b : FreshKeep m1 m2 p) : FreshKeep m m2 p :=
  ⟨b.1.trans a.1, b.2.1, b.2.2⟩

lemma cell_setCalled_st (m : Machine) {p : Nat} (hp : p < m.cells.length)
    (i : Nat) : ((setCalled m p).cell i).st = (m.cell i).st := by
  by_cases h : i = p
  · subst h; rw [cell_setCalled_self m hp]
  · rw [cell_setCalled_other m h]

lemma cell_setCalled_ext (m : Machine) {p : Nat} (hp : p < m.cells.length)
    (i : Nat) : ((setCalled m p).cell i).ext = (m.cell i).ext := by
  by_cases h : i = p
  · subst h; rw [cell_setCalled_self m hp]
  · rw [cell_setCalled_other m h]

lemma mem_queue_setQueue {m : Machine} {q : Nat} {rs : List Reaction}
    {q1 : Nat} {r : Reaction} (h : r ∈ (setQueue m q rs).queue q1) :
    r ∈ m.queue q1 ∨ (q1 = q ∧ r ∈ rs) := by
  by_cases hq : q1 = q
  · subst hq
    by_cases hlt : q1 < m.queues.length
    · rw [queue_setQueue_self m rs hlt] at h
      exact Or.inr ⟨rfl, h⟩
    · have h0 : (setQueue m q1 rs).queue q1 = [] := by
        apply queue_eq_nil_of_ge
        simp only [len_queues_setQueue]
        omega
      rw [h0] at h
      cases h
  · rw [queue_setQueue_other m rs hq] at h
    exact Or.inl h

lemma mem_queue_pushQ {m : Machine} {q : Nat} {rs : List Reaction}
    {q1 : Nat} {r : Reaction} (h : r ∈ (pushQ m q rs).queue q1) :
    r ∈ m.queue q1 ∨ (q1 = q ∧ r ∈ rs) := by
  rcases mem_queue_setQueue h with h1 | ⟨rfl, h2⟩
  · exact Or.inl h1
  · rcases List.mem_append.1 h2 with h3 | h4
    · exact Or.inl h3
    · exact Or.inr ⟨rfl, h4⟩

lemma mem_queue_addCell {m : Machine} {e : Bool} {q : Nat} {r : Reaction}
    (h : r ∈ (addCell m e).queue q) : r ∈ m.queue q := by
  by_cases hq : q < m.queues.length
  · rwa [queue_addCell_of_lt m e hq] at h
  · rcases Nat.eq_or_lt_of_le (le_of_not_lt hq) with heq | hlt
    · rw [← heq] at h
      rw [queue_addCell_len] at h
      cases h
    · have h0 : (addCell m e).queue q = [] := by
        apply queue_eq_nil_of_ge
        simp only [len_queues_addCell]
        omega
      rw [h0] at h
      cases h

lemma stOK_of_len {m m1 : Machine} {st : St}
    (hlen : m1.queues.length = m.queues.length) (h : stOK m st) :
    stOK m1 st := by
  cases st <;> simp_all [stOK]

/-! ## C3 — invariant preservation across the machine primitives -/

lemma INV_emit_run {m : Machine} (hinv : INV m) {d : Nat} (a : Val)
    (hd : d < m.cells.length) (hrun : runCount m.trace d = 0)
    (hocc : occCount m.queues d = 0) : INV (emit m (.run d a)) := by
  refine ⟨hinv.stBound, hinv.qReact, hinv.extGuard, ?_, ?_, hinv.qLen⟩
  · intro d1
    have hb := hinv.budget d1
    have h1 : runCount (emit m (.run d a)).trace d1
        = runCount m.trace d1 + runCount [Ev.run d a] d1 := by
      simp [emit, runCount_append]
    rw [h1, runCount_run]
    simp only [queues_emit]
    by_cases h : d = d1
    · subst h
      simp [hrun, hocc]
    · simp only [if_neg h]
      omega
  · intro d1 v hm
    have hm' : Ev.run d1 v ∈ m.trace ++ [Ev.run d a] := hm
    rcases List.mem_append.1 hm' with h1 | h1
    · exact hinv.runBound d1 v h1
    · have h2 : d1 = d := by
        simp at h1
        exact h1.1
      rw [h2]
      exact hd

lemma INV_emit_obs {m : Machine} (hinv : INV m) (tg : Nat) (a : Val) :
    INV (emit m (.obs tg a)) := by
  refine ⟨hinv.stBound, hinv.qReact, hinv.extGuard, ?_, ?_, hinv.qLen⟩
  · intro d1
    have h1 : runCount (emit m (.obs tg a)).trace d1
        = runCount m.trace d1 + runCount [Ev.obs tg a] d1 := by
      simp [emit, runCount_append]
    rw [h1, runCount_obs]
    simpa using hinv.budget d1
  · intro d1 v hm
    have hm' : Ev.run d1 v ∈ m.trace ++ [Ev.obs tg a] := hm
    rcases List.mem_append.1 hm' with h1 | h1
    · exact hinv.runBound d1 v h1
    · simp at h1

lemma INV_addCell {m : Machine} (hinv : INV m) (e : Bool) :
    INV (addCell m e) := by
  refine ⟨?_, ?_, ?_, ?_, ?_, ?_⟩
  · intro p q hp hst
    simp only [len_cells_addCell] at hp
    simp only [len_queues_addCell]
    rcases Nat.lt_or_ge p m.cells.length with h1 | h1
    · rw [cell_addCell_of_lt m e h1] at hst
      have := hinv.stBound p q h1 hst
      omega
    · have hpe : p = m.cells.length := by omega
      subst hpe
      rw [cell_addCell_len] at hst
      have hq : m.queues.length = q := by injection hst
      omega
  · intro q r hr
    have hr' := mem_queue_addCell hr
    obtain ⟨h1, h2, h3, h4, h5⟩ := hinv.qReact q r hr'
    refine ⟨?_, ?_, ?_, h4, h5⟩
    · simp only [len_cells_addCell]; omega
    · rw [cell_addCell_of_lt m e h1]; exact h2
    · rw [cell_addCell_of_lt m e h1]; exact h3
  · intro p hp he hc
    simp only [len_cells_addCell] at hp
    rcases Nat.lt_or_ge p m.cells.length with h1 | h1
    · rw [cell_addCell_of_lt m e h1] at he hc ⊢
      exact hinv.extGuard p h1 he hc
    · have hpe : p = m.cells.length := by omega
      subst hpe
      rw [cell_addCell_len]
      rfl
  · intro d1
    rw [occCount_addCell]
    have h1 : (addCell m e).trace = m.trace := trace_addCell m e
    rw [h1]
    exact hinv.budget d1
  · intro d1 v hm
    rw [trace_addCell] at hm
    have := hinv.runBound d1 v hm
    simp only [len_cells_addCell]
    omega
  · simp only [len_cells_addCell, len_queues_addCell]
    have := hinv.qLen
    omega

lemma INV_setCalled {m : Machine} (hinv : INV m) {p : Nat}
    (hp : p < m.cells.length) : INV (setCalled m p) := by
  refine ⟨?_, ?_, ?_, ?_, ?_, ?_⟩
  · intro p1 q hp1 hst
    rw [cell_setCalled_st m hp] at hst
    have := hinv.stBound p1 q (by simpa using hp1) hst
    simpa using this
  · intro q r hr
    have hr' : r ∈ m.queue q := hr
    obtain ⟨h1, h2, h3, h4, h5⟩ := hinv.qReact q r hr'
    exact ⟨by simpa using h1, by rw [cell_setCalled_ext m hp]; exact h2,
      by rw [cell_setCalled_st m hp]; exact h3, h4, h5⟩
  · intro p1 hp1 he hc
    by_cases h : p1 = p
    · subst h
      rw [cell_setCalled_self m hp] at hc
      simp at hc
    · rw [cell_setCalled_other m h] at he hc ⊢
      exact hinv.extGuard p1 (by simpa using hp1) he hc
  · intro d1
    exact hinv.budget d1
  · intro d1 v hm
    have := hinv.runBound d1 v hm
    simpa using this
  · simpa using hinv.qLen

lemma INV_setSt_adopt {m : Machine} (hinv : INV m) {p : Nat} {st : St}
    (hp : p < m.cells.length) (hstok : stOK m st)
    (hgc : (m.cell p).ext = true → (m.cell p).called = true)
    (hor : (m.cell p).ext = true ∨ occCount m.queues p = 0) :
    INV (setSt m p st) := by
  refine ⟨?_, ?_, ?_, ?_, ?_, ?_⟩
  · intro p1 q hp1 hst
    by_cases h : p1 = p
    · subst h
      rw [cell_setSt_self m hp] at hst
      have h2 : st = .pending q := hst
      rw [h2] at hstok
      simpa [stOK] using hstok
    · rw [cell_setSt_other m h] at hst
      have := hinv.stBound p1 q (by simpa using hp1) hst
      simpa using this
  · intro q r hr
    have hr' : r ∈ m.queue q := hr
    obtain ⟨h1, h2, h3, h4, h5⟩ := hinv.qReact q r hr'
    have hne : r.d ≠ p := by
      intro he
      rcases hor with hx | hx
      · rw [he] at h2
        rw [hx] at h2
        cases h2
      · have h6 := le_occCount_of_mem hr'
        rw [he] at h6
        omega
    rw [cell_setSt_other m hne]
    exact ⟨by simpa using h1, h2, h3, h4, h5⟩
  · intro p1 hp1 he hc
    by_cases h : p1 = p
    · subst h
      rw [cell_setSt_self m hp] at he hc
      have h2 := hgc he
      rw [h2] at hc
      cases hc
    · rw [cell_setSt_other m h] at he hc ⊢
      exact hinv.extGuard p1 (by simpa using hp1) he hc
  · intro d1
    exact hinv.budget d1
  · intro d1 v hm
    have := hinv.runBound d1 v hm
    simpa using this
  · simpa using hinv.qLen

lemma INV_pushQ {m : Machine} (hinv : INV m) {q : Nat} {r : Reaction}
    (hq : q < m.queues.length) (hd : r.d < m.cells.length)
    (hext : (m.cell r.d).ext = false)
    (hpend : (m.cell r.d).st.isPending = true)
    (hrun : runCount m.trace r.d = 0) (hocc : occCount m.queues r.d = 0)
    (hF : simpleH r.onF) (hR : simpleH r.onR) :
    INV (pushQ m q [r]) := by
  refine ⟨?_, ?_, ?_, ?_, ?_, ?_⟩
  · intro p1 q1 hp1 hst
    have := hinv.stBound p1 q1 (by simpa using hp1) hst
    simpa using this
  · intro q1 r1 hr1
    rcases mem_queue_pushQ hr1 with h1 | ⟨rfl, h2⟩
    · exact hinv.qReact q1 r1 h1
    · simp at h2
      subst h2
      exact ⟨hd, hext, hpend, hF, hR⟩
  · intro p1 hp1 he hc
    exact hinv.extGuard p1 (by simpa using hp1) he hc
  · intro d1
    rw [occCount_pushQ m [r] d1 hq]
    simp only [trace_pushQ]
    have hb := hinv.budget d1
    by_cases h : r.d = d1
    · subst h
      have h1 : cnt [r] r.d = 1 := by simp [cnt]
      rw [h1]
      omega
    · have h1 : cnt [r] d1 = 0 := by simp [cnt, h]
      rw [h1]
      omega
  · intro d1 v hm
    exact hinv.runBound d1 v hm
  · simpa using hinv.qLen

lemma INV_setQueue_clear {m : Machine} (hinv : INV m) {q : Nat}
    (hq : q < m.queues.length) : INV (setQueue m q []) := by
  refine ⟨?_, ?_, ?_, ?_, ?_, ?_⟩
  · intro p1 q1 hp1 hst
    have := hinv.stBound p1 q1 (by simpa using hp1) hst
    simpa using this
  · intro q1 r1 hr1
    rcases mem_queue_setQueue hr1 with h1 | ⟨rfl, h2⟩
    · exact hinv.qReact q1 r1 h1
    · cases h2
  · intro p1 hp1 he hc
    exact hinv.extGuard p1 (by simpa using hp1) he hc
  · intro d1
    have heq := occCount_clear m d1 hq
    have hb := hinv.budget d1
    simp only [trace_setQueue]
    omega
  · intro d1 v hm
    exact hinv.runBound d1 v hm
  · simpa using hinv.qLen

/-! ## C3 — the master preservation induction over the interpreter -/

/-- Every interpreter job, run under its caller's precondition, preserves
the machine invariant, only extends the machine (sizes fixed, settled cells
frozen, trace append-only), and leaves every fresh deferred outside its
roots untouched. -/
lemma execPres : ∀ (fuel : Nat) (job : Job) (m : Machine), INV m →
    JobPre m job →
    INV (exec fuel job m) ∧ MExt m (exec fuel job m)
      ∧ ∀ p, Fresh m p → p ∉ jobRoots job →
          FreshKeep m (exec fuel job m) p := by
  intro fuel
  induction fuel with
  | zero =>
    intro job m hinv _
    exact ⟨hinv, mext_refl m, fun p hf _ => freshKeep_refl hf⟩
  | succ fuel ih =>
    intro job m hinv hpre
    cases job with
    | adopt p st =>
      obtain ⟨hp, hpend, hstok, hgc, hor⟩ := hpre
      obtain ⟨q, hq⟩ := isPending_iff.1 hpend
      have hred : exec (fuel + 1) (.adopt p st) m
          = exec fuel (.flushLoop q st) (setSt m p st) := by
        simp only [exec, hq]
      rw [hred]
      have hinv1 : INV (setSt m p st) := INV_setSt_adopt hinv hp hstok hgc hor
      have hpre1 : JobPre (setSt m p st) (.flushLoop q st) :=
        stOK_of_len (by simp) hstok
      obtain ⟨hinv2, hext2, hfr2⟩ :=
        ih (.flushLoop q st) (setSt m p st) hinv1 hpre1
      refine ⟨hinv2, mext_trans (mext_setSt_pending st hpend) hext2, ?_⟩
      intro p1 hf hroots
      have hne : p1 ≠ p := by simpa [jobRoots] using hroots
      have hk1 : FreshKeep m (setSt m p st) p1 :=
        ⟨cell_setSt_other m hne, by simpa using hf.2.2.1,
          by simpa using hf.2.2.2⟩
      have hk2 := hfr2 p1 (fresh_of_keep hf hk1) (by simp [jobRoots])
      exact freshKeep_trans hk1 hk2
    | flushLoop q st =>
      have hstok : stOK m st := hpre
      cases hqv : m.queue q with
      | nil =>
        have hred : exec (fuel + 1) (.flushLoop q st) m = m := by
          simp only [exec, hqv]
        rw [hred]
        exact ⟨hinv, mext_refl m, fun p hf _ => freshKeep_refl hf⟩
      | cons r0 rs0 =>
        have hq : q < m.queues.length :=
          queue_lt_of_ne_nil (by rw [hqv]; simp)
        have hred : exec (fuel + 1) (.flushLoop q st) m
            = exec fuel (.flushLoop q st)
                (exec fuel (.flushList (r0 :: rs0) st)
                  (setQueue m q [])) := by
          simp only [exec, hqv]
        rw [hred]
        have hinvc : INV (setQueue m q []) := INV_setQueue_clear hinv hq
        have hallm : ∀ r ∈ r0 :: rs0, r ∈ m.queue q := by
          intro r hr; rw [hqv]; exact hr
        have hclear : ∀ d1,
            occCount (setQueue m q []).queues d1 + cnt (m.queue q) d1
              = occCount m.queues d1 := fun d1 => occCount_clear m d1 hq
        have hprops : ∀ r ∈ r0 :: rs0, r.d < (setQueue m q []).cells.length
            ∧ ((setQueue m q []).cell r.d).ext = false
            ∧ ((setQueue m q []).cell r.d).st.isPending = true
            ∧ runCount (setQueue m q []).trace r.d = 0
            ∧ occCount (setQueue m q []).queues r.d = 0
            ∧ simpleH r.onF ∧ simpleH r.onR := by
          intro r hr
          obtain ⟨h1, h2, h3, h4, h5⟩ := hinv.qReact q r (hallm r hr)
          have hocc1 : 1 ≤ cnt (m.queue q) r.d :=
            cnt_pos_of_mem (hallm r hr)
          have hb := hinv.budget r.d
          have hcl := hclear r.d
          refine ⟨h1, h2, h3, ?_, by omega, h4, h5⟩
          have h6 : runCount m.trace r.d = 0 := by omega
          simpa using h6
        have hnodup : ((r0 :: rs0).map Reaction.d).Nodup := by
          rw [List.nodup_iff_count_le_one]
          intro d1
          rw [count_map_d]
          have h1 : cnt (r0 :: rs0) d1 = cnt (m.queue q) d1 := by rw [hqv]
          have h2 := cnt_le_occCount d1 hq
          have hb := hinv.budget d1
          omega
        have hpre1 : JobPre (setQueue m q []) (.flushList (r0 :: rs0) st) :=
          ⟨stOK_of_len (by simp) hstok, hnodup, hprops⟩
        obtain ⟨hinv2, hext2, hfr2⟩ := ih _ (setQueue m q []) hinvc hpre1
        have hpre2 : JobPre
            (exec fuel (.flushList (r0 :: rs0) st) (setQueue m q []))
            (.flushLoop q st) :=
          stOK_of_len (hext2.queuesLen.trans (by simp)) hstok
        obtain ⟨hinv3, hext3, hfr3⟩ := ih _ _ hinv2 hpre2
        refine ⟨hinv3,
          mext_trans (mext_trans (mext_setQueue m q []) hext2) hext3, ?_⟩
        intro p1 hf _
        have hocc0 : occCount (setQueue m q []).queues p1 = 0 := by
          have hcl := hclear p1
          have h1 := hf.2.2.2
          omega
        have hk1 : FreshKeep m (setQueue m q []) p1 :=
          ⟨rfl, by simpa using hf.2.2.1, hocc0⟩
        have hf1 := fresh_of_keep hf hk1
        have hnotin : p1 ∉ jobRoots (.flushList (r0 :: rs0) st) := by
          simp only [jobRoots]
          intro hmem
          obtain ⟨r, hr, hrd⟩ := List.mem_map.1 hmem
          have h1 := le_occCount_of_mem (hallm r hr)
          rw [hrd] at h1
          have h2 := hf.2.2.2
          omega
        have hk2 := hfr2 p1 hf1 hnotin
        have hf2 := fresh_of_keep hf1 hk2
        have hk3 := hfr3 p1 hf2 (by simp [jobRoots])
        exact freshKeep_trans hk1 (freshKeep_trans hk2 hk3)
    | flushList rs st =>
      obtain ⟨hstok, hnodup, hall⟩ := hpre
      cases rs with
      | nil =>
        have hred : exec (fuel + 1) (.flushList [] st) m = m := by
          simp only [exec]
        rw [hred]
        exact ⟨hinv, mext_refl m, fun p hf _ => freshKeep_refl hf⟩
      | cons r rest =>
        obtain ⟨hd, hext, hpend, hrun, hocc, hF, hR⟩ := hall r (by simp)
        have hnodup' : (rest.map Reaction.d).Nodup
            ∧ r.d ∉ rest.map Reaction.d := by
          simp only [List.map_cons, List.nodup_cons] at hnodup
          exact ⟨hnodup.2, hnodup.1⟩
        cases st with
        | pending q2 =>
          have hq2 : q2 < m.queues.length := hstok
          have hred :
              exec (fuel + 1) (.flushList (r :: rest) (.pending q2)) m
                = exec fuel (.flushList rest (.pending q2))
                    (pushQ m q2 [r]) := by
            simp only [exec]
          rw [hred]
          have hinv1 : INV (pushQ m q2 [r]) :=
            INV_pushQ hinv hq2 hd hext hpend hrun hocc hF hR
          have hpre1 : JobPre (pushQ m q2 [r])
              (.flushList rest (.pending q2)) := by
            refine ⟨stOK_of_len (by simp) hstok, hnodup'.1, ?_⟩
            intro r1 hr1
            obtain ⟨b1, b2, b3, b4, b5, b6, b7⟩ := hall r1 (by simp [hr1])
            have hne : r.d ≠ r1.d := fun he =>
              hnodup'.2 (he ▸ List.mem_map_of_mem Reaction.d hr1)
            refine ⟨by simpa using b1, by simpa using b2, by simpa using b3,
              by simpa using b4, ?_, b6, b7⟩
            rw [occCount_pushQ m [r] r1.d hq2]
            have h1 : cnt [r] r1.d = 0 := by
              simp only [cnt, List.countP_cons, List.countP_nil]
              simp [hne]
            omega
          obtain ⟨hinv2, hext2, hfr2⟩ := ih _ (pushQ m q2 [r]) hinv1 hpre1
          refine ⟨hinv2, mext_trans (mext_pushQ m q2 [r]) hext2, ?_⟩
          intro p1 hf hroots
          have hroots' : p1 ≠ r.d ∧ p1 ∉ rest.map Reaction.d := by
            simp only [jobRoots, List.map_cons, List.mem_cons] at hroots
            exact ⟨fun he => hroots (Or.inl he),
              fun hm => hroots (Or.inr hm)⟩
          have hocc1 : occCount (pushQ m q2 [r]).queues p1 = 0 := by
            rw [occCount_pushQ m [r] p1 hq2]
            have h1 : cnt [r] p1 = 0 := by
              simp only [cnt, List.countP_cons, List.countP_nil]
              simp
              exact fun he => hroots'.1 he.symm
            have h2 := hf.2.2.2
            omega
          have hk1 : FreshKeep m (pushQ m q2 [r]) p1 :=
            ⟨by simp, by simpa using hf.2.2.1, hocc1⟩
          have hk2 := hfr2 p1 (fresh_of_keep hf hk1)
            (by simpa [jobRoots] using hroots'.2)
          exact freshKeep_trans hk1 hk2
        | fulfilled v =>
          have hred :
              exec (fuel + 1) (.flushList (r :: rest) (.fulfilled v)) m
                = exec fuel (.flushList rest (.fulfilled v))
                    (exec fuel (.tryCatch r.d r.onF v) m) := by
            simp only [exec]
          rw [hred]
          have hpre1 : JobPre m (.tryCatch r.d r.onF v) :=
            ⟨⟨hd, hext, hpend, hocc⟩, hrun, hF⟩
          obtain ⟨hinv1, hext1, hfr1⟩ := ih _ m hinv hpre1
          have hpre2 : JobPre (exec fuel (.tryCatch r.d r.onF v) m)
              (.flushList rest (.fulfilled v)) := by
            refine ⟨trivial, hnodup'.1, ?_⟩
            intro r1 hr1
            obtain ⟨b1, b2, b3, b4, b5, b6, b7⟩ := hall r1 (by simp [hr1])
            have hne : r1.d ∉ jobRoots (.tryCatch r.d r.onF v) := by
              simp only [jobRoots, List.mem_singleton]
              intro he
              exact hnodup'.2 (he ▸ List.mem_map_of_mem Reaction.d hr1)
            have hk := hfr1 r1.d ⟨b2, b3, b4, b5⟩ hne
            exact ⟨by rw [hext1.cellsLen]; exact b1,
              by rw [hk.1]; exact b2, by rw [hk.1]; exact b3,
              hk.2.1, hk.2.2, b6, b7⟩
          obtain ⟨hinv2, hext2, hfr2⟩ := ih _ _ hinv1 hpre2
          refine ⟨hinv2, mext_trans hext1 hext2, ?_⟩
          intro p1 hf hroots
          have hroots' : p1 ≠ r.d ∧ p1 ∉ rest.map Reaction.d := by
            simp only [jobRoots, List.map_cons, List.mem_cons] at hroots
            exact ⟨fun he => hroots (Or.inl he),
              fun hm => hroots (Or.inr hm)⟩
          have hk1 := hfr1 p1 hf (by simpa [jobRoots] using hroots'.1)
          have hk2 := hfr2 p1 (fresh_of_keep hf hk1)
            (by simpa [jobRoots] using hroots'.2)
          exact freshKeep_trans hk1 hk2
        | rejected e =>
          have hred :
              exec (fuel + 1) (.flushList (r :: rest) (.rejected e)) m
                = exec fuel (.flushList rest (.rejected e))
                    (exec fuel (.tryCatch r.d r.onR e) m) := by
            simp only [exec]
          rw [hred]
          have hpre1 : JobPre m (.tryCatch r.d r.onR e) :=
            ⟨⟨hd, hext, hpend, hocc⟩, hrun, hR⟩
          obtain ⟨hinv1, hext1, hfr1⟩ := ih _ m hinv hpre1
          have hpre2 : JobPre (exec fuel (.tryCatch r.d r.onR e) m)
              (.flushList rest (.rejected e)) := by
            refine ⟨trivial, hnodup'.1, ?_⟩
            intro r1 hr1
            obtain ⟨b1, b2, b3, b4, b5, b6, b7⟩ := hall r1 (by simp [hr1])
            have hne : r1.d ∉ jobRoots (.tryCatch r.d r.onR e) := by
              simp only [jobRoots, List.mem_singleton]
              intro he
              exact hnodup'.2 (he ▸ List.mem_map_of_mem Reaction.d hr1)
            have hk := hfr1 r1.d ⟨b2, b3, b4, b5⟩ hne
            exact ⟨by rw [hext1.cellsLen]; exact b1,
              by rw [hk.1]; exact b2, by rw [hk.1]; exact b3,
              hk.2.1, hk.2.2, b6, b7⟩
          obtain ⟨hinv2, hext2, hfr2⟩ := ih _ _ hinv1 hpre2
          refine ⟨hinv2, mext_trans hext1 hext2, ?_⟩
          intro p1 hf hroots
          have hroots' : p1 ≠ r.d ∧ p1 ∉ rest.map Reaction.d := by
            simp only [jobRoots, List.map_cons, List.mem_cons] at hroots
            exact ⟨fun he => hroots (Or.inl he),
              fun hm => hroots (Or.inr hm)⟩
          have hk1 := hfr1 p1 hf (by simpa [jobRoots] using hroots'.1)
          have hk2 := hfr2 p1 (fresh_of_keep hf hk1)
            (by simpa [jobRoots] using hroots'.2)
          exact freshKeep_trans hk1 hk2
    | tryCatch d h arg =>
      obtain ⟨⟨hd, hext, hpend, hocc⟩, hrun, hsh⟩ := hpre
      cases h with
      | pure f =>
        have hinvr : INV (emit m (.run d arg)) :=
          INV_emit_run hinv arg hd hrun hocc
        have hdok : dOK (emit m (.run d arg)) d := ⟨hd, hext, hpend, hocc⟩
        have hkeepEmit : ∀ p1, Fresh m p1 → p1 ≠ d →
            FreshKeep m (emit m (.run d arg)) p1 := by
          intro p1 hf hne
          refine ⟨rfl, ?_, hf.2.2.2⟩
          have h1 : (emit m (.run d arg)).trace
              = m.trace ++ [Ev.run d arg] := rfl
          rw [h1, runCount_append, runCount_run,
            if_neg (fun he => hne he.symm)]
          have h2 := hf.2.2.1
          omega
        cases hfv : f arg with
        | thr e =>
          have hred : exec (fuel + 1) (.tryCatch d (.pure f) arg) m
              = exec fuel (.guardedReject d e) (emit m (.run d arg)) := by
            simp only [exec, hfv]
          rw [hred]
          obtain ⟨hinv1, hext1, hfr1⟩ :=
            ih (.guardedReject d e) _ hinvr hdok
          refine ⟨hinv1, mext_trans (mext_emit m _) hext1, ?_⟩
          intro p1 hf hroots
          have hne : p1 ≠ d := by simpa [jobRoots] using hroots
          have hk0 := hkeepEmit p1 hf hne
          have hk1 := hfr1 p1 (fresh_of_keep hf hk0)
            (by simpa [jobRoots] using hne)
          exact freshKeep_trans hk0 hk1
        | ret v =>
          have hred : exec (fuel + 1) (.tryCatch d (.pure f) arg) m
              = exec fuel (.doResolveD d v) (emit m (.run d arg)) := by
            simp only [exec, hfv]
          rw [hred]
          obtain ⟨hinv1, hext1, hfr1⟩ :=
            ih (.doResolveD d v) _ hinvr hdok
          refine ⟨hinv1, mext_trans (mext_emit m _) hext1, ?_⟩
          intro p1 hf hroots
          have hne : p1 ≠ d := by simpa [jobRoots] using hroots
          have hk0 := hkeepEmit p1 hf hne
          have hk1 := hfr1 p1 (fresh_of_keep hf hk0)
            (by simpa [jobRoots] using hne)
          exact freshKeep_trans hk0 hk1
      | observer tag =>
        have hinvr : INV (emit (emit m (.run d arg)) (.obs tag arg)) :=
          INV_emit_obs (INV_emit_run hinv arg hd hrun hocc) tag arg
        have hdok : dOK (emit (emit m (.run d arg)) (.obs tag arg)) d :=
          ⟨hd, hext, hpend, hocc⟩
        have hred : exec (fuel + 1) (.tryCatch d (.observer tag) arg) m
            = exec fuel (.doResolveD d .undef)
                (emit (emit m (.run d arg)) (.obs tag arg)) := by
          simp only [exec]
        rw [hred]
        obtain ⟨hinv1, hext1, hfr1⟩ :=
          ih (.doResolveD d .undef) _ hinvr hdok
        refine ⟨hinv1,
          mext_trans (mext_trans (mext_emit m _) (mext_emit _ _)) hext1,
          ?_⟩
        intro p1 hf hroots
        have hne : p1 ≠ d := by simpa [jobRoots] using hroots
        have hk0 : FreshKeep m (emit (emit m (.run d arg)) (.obs tag arg))
            p1 := by
          refine ⟨rfl, ?_, hf.2.2.2⟩
          have h1 : (emit (emit m (.run d arg)) (.obs tag arg)).trace
              = m.trace ++ [Ev.run d arg] ++ [Ev.obs tag arg] := rfl
          rw [h1, runCount_append, runCount_append, runCount_run,
            runCount_obs, if_neg (fun he => hne he.symm)]
          have h2 := hf.2.2.1
          omega
        have hk1 := hfr1 p1 (fresh_of_keep hf hk0)
          (by simpa [jobRoots] using hne)
        exact freshKeep_trans hk0 hk1
      | seqThen tgt inner => simp [simpleH] at hsh
      | abortThrow => simp [simpleH] at hsh
    | doResolveD d res =>
      obtain ⟨hd, hext, hpend, hocc⟩ := hpre
      have hdok : dOK m d := ⟨hd, hext, hpend, hocc⟩
      have hGR : ∀ w : Val,
          INV (exec fuel (.guardedResolve d w) m)
          ∧ MExt m (exec fuel (.guardedResolve d w) m)
          ∧ ∀ p1, Fresh m p1 → p1 ∉ ([d] : List Nat) →
              FreshKeep m (exec fuel (.guardedResolve d w) m) p1 :=
        fun w => ih (.guardedResolve d w) m hinv hdok
      by_cases hself : res = .promise d
      · have hred : exec (fuel + 1) (.doResolveD d res) m
            = exec fuel (.guardedReject d selfErr) m := by
          simp only [exec, if_pos hself]
        rw [hred]
        exact ih (.guardedReject d selfErr) m hinv hdok
      · by_cases hplain : isPlain res = true
        · rw [exec_doResolveD_plain fuel hplain]
          exact hGR res
        · obtain ⟨j, rfl⟩ : ∃ j, res = Val.promise j := by
            cases res <;> simp_all [isPlain]
          have hjd : j ≠ d := fun he => hself (by rw [he])
          rw [exec_doResolveD_promiseRef fuel hjd]
          by_cases hj : j < m.cells.length
          · rw [if_pos hj]
            have hpre1 : JobPre m (.adopt d ((m.cell j).st)) := by
              refine ⟨hd, hpend, ?_, ?_, Or.inr hocc⟩
              · cases hjs : (m.cell j).st with
                | pending qj => exact hinv.stBound j qj hj hjs
                | fulfilled v => trivial
                | rejected e => trivial
              · intro he
                rw [hext] at he
                cases he
            exact ih _ m hinv hpre1
          · rw [if_neg hj]
            exact hGR _
    | guardedResolve d v =>
      obtain ⟨hd, hext, hpend, hocc⟩ := hpre
      by_cases hc : (m.cell d).called = true
      · have hred : exec (fuel + 1) (.guardedResolve d v) m = m := by
          simp [exec, hc]
        rw [hred]
        exact ⟨hinv, mext_refl m, fun p hf _ => freshKeep_refl hf⟩
      · have hc' : (m.cell d).called = false := by
          cases hcv : (m.cell d).called
          · rfl
          · exact absurd hcv hc
        have hred : exec (fuel + 1) (.guardedResolve d v) m
            = exec fuel (.adopt d (.fulfilled v)) (setCalled m d) := by
          simp [exec, hc']
        rw [hred]
        have hinv1 : INV (setCalled m d) := INV_setCalled hinv hd
        have hpre1 : JobPre (setCalled m d) (.adopt d (.fulfilled v)) := by
          refine ⟨by simpa using hd,
            by rw [cell_setCalled_st m hd]; exact hpend, trivial, ?_,
            Or.inr (by simpa using hocc)⟩
          intro _
          rw [cell_setCalled_self m hd]
        obtain ⟨hinv2, hext2, hfr2⟩ := ih _ _ hinv1 hpre1
        refine ⟨hinv2, mext_trans (mext_setCalled hpend) hext2, ?_⟩
        intro p1 hf hroots
        have hne : p1 ≠ d := by simpa [jobRoots] using hroots
        have hk1 : FreshKeep m (setCalled m d) p1 :=
          ⟨cell_setCalled_other m hne, by simpa using hf.2.2.1,
            by simpa using hf.2.2.2⟩
        have hk2 := hfr2 p1 (fresh_of_keep hf hk1)
          (by simpa [jobRoots] using hne)
        exact freshKeep_trans hk1 hk2
    | guardedReject d e =>
      obtain ⟨hd, hext, hpend, hocc⟩ := hpre
      by_cases hc : (m.cell d).called = true
      · have hred : exec (fuel + 1) (.guardedReject d e) m = m := by
          simp [exec, hc]
        rw [hred]
        exact ⟨hinv, mext_refl m, fun p hf _ => freshKeep_refl hf⟩
      · have hc' : (m.cell d).called = false := by
          cases hcv : (m.cell d).called
          · rfl
          · exact absurd hcv hc
        have hred : exec (fuel + 1) (.guardedReject d e) m
            = exec fuel (.adopt d (.rejected e)) (setCalled m d) := by
          simp [exec, hc']
        rw [hred]
        have hinv1 : INV (setCalled m d) := INV_setCalled hinv hd
        have hpre1 : JobPre (setCalled m d) (.adopt d (.rejected e)) := by
          refine ⟨by simpa using hd,
            by rw [cell_setCalled_st m hd]; exact hpend, trivial, ?_,
            Or.inr (by simpa using hocc)⟩
          intro _
          rw [cell_setCalled_self m hd]
        obtain ⟨hinv2, hext2, hfr2⟩ := ih _ _ hinv1 hpre1
        refine ⟨hinv2, mext_trans (mext_setCalled hpend) hext2, ?_⟩
        intro p1 hf hroots
        have hne : p1 ≠ d := by simpa [jobRoots] using hroots
        have hk1 : FreshKeep m (setCalled m d) p1 :=
          ⟨cell_setCalled_other m hne, by simpa using hf.2.2.1,
            by simpa using hf.2.2.2⟩
        have hk2 := hfr2 p1 (fresh_of_keep hf hk1)
          (by simpa [jobRoots] using hne)
        exact freshKeep_trans hk1 hk2

/-! ## C3 — preservation across the user-facing operations -/

lemma resolvePres (fuel : Nat) (p : Nat) (v : Val) (m : Machine)
    (hinv : INV m) (hext : (m.cell p).ext = true) :
    INV (resolveOp fuel p v m)
      ∧ ∀ pp, (m.cell pp).st.isSettled = true →
          (resolveOp fuel p v m).cell pp = m.cell pp := by
  unfold resolveOp
  by_cases hc : (m.cell p).called = true
  · rw [if_pos hc]
    exact ⟨hinv, fun _ _ => rfl⟩
  · have hc' : (m.cell p).called = false := by
      cases hcv : (m.cell p).called
      · rfl
      · exact absurd hcv hc
    have hp : p < m.cells.length := lt_of_not_called hc'
    have hpend : (m.cell p).st.isPending = true :=
      hinv.extGuard p hp hext hc'
    have hinv1 : INV (setCalled m p) := INV_setCalled hinv hp
    rw [if_neg hc]
    have hkey : ∀ st0 : St, stOK (setCalled m p) st0 →
        INV (exec fuel (.adopt p st0) (setCalled m p))
        ∧ ∀ pp, (m.cell pp).st.isSettled = true →
            (exec fuel (.adopt p st0) (setCalled m p)).cell pp
              = m.cell pp := by
      intro st0 hstok
      have hpre1 : JobPre (setCalled m p) (.adopt p st0) := by
        refine ⟨by simpa using hp,
          by rw [cell_setCalled_st m hp]; exact hpend, hstok, ?_, ?_⟩
        · intro _
          rw [cell_setCalled_self m hp]
        · exact Or.inl (by rw [cell_setCalled_ext m hp]; exact hext)
      obtain ⟨hinv2, hext2, _⟩ := execPres fuel _ _ hinv1 hpre1
      exact ⟨hinv2, fun pp hs =>
        (mext_trans (mext_setCalled hpend) hext2).settledKeep pp hs⟩
    by_cases hself : v = .promise p
    · rw [if_pos hself]
      exact hkey _ trivial
    · rw [if_neg hself]
      cases v with
      | promise j =>
        by_cases hj : j < (setCalled m p).cells.length
        · simp only [hj, if_true]
          apply hkey
          cases hjs : ((setCalled m p).cell j).st with
          | pending qj => exact hinv1.stBound j qj hj hjs
          | fulfilled w => trivial
          | rejected w => trivial
        · simp only [hj, if_false]
          exact hkey _ trivial
      | undef => exact hkey _ trivial
      | null => exact hkey _ trivial
      | num n => exact hkey _ trivial
      | bool b => exact hkey _ trivial
      | str s => exact hkey _ trivial
      | arrNil => exact hkey _ trivial
      | arrCons a b => exact hkey _ trivial
      | typeError s => exact hkey _ trivial
      | jsError s => exact hkey _ trivial
      | sentinel => exact hkey _ trivial

lemma rejectPres (fuel : Nat) (p : Nat) (e : Val) (m : Machine)
    (hinv : INV m) (hext : (m.cell p).ext = true) :
    INV (rejectOp fuel p e m)
      ∧ ∀ pp, (m.cell pp).st.isSettled = true →
          (rejectOp fuel p e m).cell pp = m.cell pp := by
  unfold rejectOp
  by_cases hc : (m.cell p).called = true
  · rw [if_pos hc]
    exact ⟨hinv, fun _ _ => rfl⟩
  · have hc' : (m.cell p).called = false := by
      cases hcv : (m.cell p).called
      · rfl
      · exact absurd hcv hc
    have hp : p < m.cells.length := lt_of_not_called hc'
    have hpend : (m.cell p).st.isPending = true :=
      hinv.extGuard p hp hext hc'
    have hinv1 : INV (setCalled m p) := INV_setCalled hinv hp
    rw [if_neg hc]
    have hpre1 : JobPre (setCalled m p) (.adopt p (.rejected e)) := by
      refine ⟨by simpa using hp,
        by rw [cell_setCalled_st m hp]; exact hpend, trivial, ?_, ?_⟩
      · intro _
        rw [cell_setCalled_self m hp]
      · exact Or.inl (by rw [cell_setCalled_ext m hp]; exact hext)
    obtain ⟨hinv2, hext2, _⟩ := execPres fuel _ _ hinv1 hpre1
    exact ⟨hinv2, fun pp hs =>
      (mext_trans (mext_setCalled hpend) hext2).settledKeep pp hs⟩

lemma thenPres (fuel : Nat) (p : Nat) (onF onR : Handler)
    (hF : simpleH onF) (hR : simpleH onR) (m : Machine) (hinv : INV m)
    (hp : p < m.cells.length) :
    INV (thenOp fuel p onF onR m).2
      ∧ ∀ pp, (m.cell pp).st.isSettled = true →
          ((thenOp fuel p onF onR m).2).cell pp = m.cell pp := by
  have hinv1 : INV (addCell m false) := INV_addCell hinv false
  have hdc : (addCell m false).cell m.cells.length
      = ⟨.pending m.queues.length, false, false⟩ := cell_addCell_len m false
  have hrun0 : runCount m.trace m.cells.length = 0 :=
    runCount_eq_zero_of_bound hinv.runBound (le_refl _)
  have hocc0 : occCount m.queues m.cells.length = 0 :=
    occCount_eq_zero_of_bound (fun q r hr => (hinv.qReact q r hr).1)
      (le_refl _)
  cases hst : (m.cell p).st with
  | pending q =>
    have hred : (thenOp fuel p onF onR m).2
        = pushQ (addCell m false) q [⟨onF, onR, m.cells.length⟩] := by
      simp [thenOp, hst]
    rw [hred]
    have hq : q < m.queues.length := hinv.stBound p q hp hst
    have hinv2 : INV (pushQ (addCell m false) q
        [⟨onF, onR, m.cells.length⟩]) := by
      apply INV_pushQ hinv1
      · simp
        omega
      · simp
      · rw [hdc]
      · rw [hdc]
        rfl
      · rw [trace_addCell]
        exact hrun0
      · rw [occCount_addCell]
        exact hocc0
      · exact hF
      · exact hR
    refine ⟨hinv2, ?_⟩
    intro pp hs
    exact cell_addCell_of_lt m false (lt_of_settled hs)
  | fulfilled v =>
    have hred : (thenOp fuel p onF onR m).2
        = exec fuel (.tryCatch m.cells.length onF v) (addCell m false) := by
      simp [thenOp, hst]
    rw [hred]
    have hpre1 : JobPre (addCell m false)
        (.tryCatch m.cells.length onF v) := by
      refine ⟨⟨by simp, by rw [hdc], by rw [hdc]; rfl, ?_⟩, ?_, hF⟩
      · rw [occCount_addCell]
        exact hocc0
      · rw [trace_addCell]
        exact hrun0
    obtain ⟨hinv2, hext2, _⟩ := execPres fuel _ _ hinv1 hpre1
    refine ⟨hinv2, ?_⟩
    intro pp hs
    have h1 : (addCell m false).cell pp = m.cell pp :=
      cell_addCell_of_lt m false (lt_of_settled hs)
    have hs1 : ((addCell m false).cell pp).st.isSettled = true := by
      rw [h1]; exact hs
    rw [hext2.settledKeep pp hs1, h1]
  | rejected ev =>
    have hred : (thenOp fuel p onF onR m).2
        = exec fuel (.tryCatch m.cells.length onR ev)
            (addCell m false) := by
      simp [thenOp, hst]
    rw [hred]
    have hpre1 : JobPre (addCell m false)
        (.tryCatch m.cells.length onR ev) := by
      refine ⟨⟨by simp, by rw [hdc], by rw [hdc]; rfl, ?_⟩, ?_, hR⟩
      · rw [occCount_addCell]
        exact hocc0
      · rw [trace_addCell]
        exact hrun0
    obtain ⟨hinv2, hext2, _⟩ := execPres fuel _ _ hinv1 hpre1
    refine ⟨hinv2, ?_⟩
    intro pp hs
    have h1 : (addCell m false).cell pp = m.cell pp :=
      cell_addCell_of_lt m false (lt_of_settled hs)
    have hs1 : ((addCell m false).cell pp).st.isSettled = true := by
      rw [h1]; exact hs
    rw [hext2.settledKeep pp hs1, h1]

/-- One user operation preserves the invariant and never touches a settled
cell. -/
lemma stepPres (fuel : Nat) (op : Op) (m : Machine) (hinv : INV m) :
    INV (stepOp fuel op m)
      ∧ ∀ p, (m.cell p).st.isSettled = true →
          (stepOp fuel op m).cell p = m.cell p := by
  cases op with
  | newP =>
    refine ⟨INV_addCell hinv true, ?_⟩
    intro p hs
    exact cell_addCell_of_lt m true (lt_of_settled hs)
  | callResolve p v =>
    simp only [stepOp]
    by_cases hext : (m.cell p).ext = true
    · rw [if_pos hext]
      exact resolvePres fuel p v m hinv hext
    · rw [if_neg hext]
      exact ⟨hinv, fun _ _ => rfl⟩
  | callReject p v =>
    simp only [stepOp]
    by_cases hext : (m.cell p).ext = true
    · rw [if_pos hext]
      exact rejectPres fuel p v m hinv hext
    · rw [if_neg hext]
      exact ⟨hinv, fun _ _ => rfl⟩
  | thenF p f g =>
    simp only [stepOp]
    by_cases hp : p < m.cells.length
    · rw [if_pos hp]
      exact thenPres fuel p (.pure f) (.pure g) trivial trivial m hinv hp
    · rw [if_neg hp]
      exact ⟨hinv, fun _ _ => rfl⟩
  | thenObs p tag =>
    simp only [stepOp]
    by_cases hp : p < m.cells.length
    · rw [if_pos hp]
      exact thenPres fuel p (.observer tag) (.observer tag) trivial trivial
        m hinv hp
    · rw [if_neg hp]
      exact ⟨hinv, fun _ _ => rfl⟩

/-- A whole user program preserves the invariant and never touches a
settled cell. -/
lemma progPres (fuel : Nat) : ∀ (ops : List Op) (m : Machine), INV m →
    INV (execProg fuel ops m)
      ∧ ∀ p, (m.cell p).st.isSettled = true →
          (execProg fuel ops m).cell p = m.cell p := by
  intro ops
  induction ops with
  | nil => exact fun m h => ⟨h, fun _ _ => rfl⟩
  | cons op rest ih =>
    intro m h
    have h1 := stepPres fuel op m h
    have h2 := ih (stepOp fuel op m) h1.1
    constructor
    · simp only [execProg, List.foldl_cons]
      exact h2.1
    · intro p hs
      have e1 := h1.2 p hs
      have hs1 : ((stepOp fuel op m).cell p).st.isSettled = true := by
        rw [e1]; exact hs
      simp only [execProg, List.foldl_cons]
      have e2 := h2.2 p hs1
      simp only [execProg] at e2
      rw [e2, e1]

/-- The empty machine satisfies the invariant. -/
lemma INV_m0 : INV m0 := by
  refine ⟨?_, ?_, ?_, ?_, ?_, ?_⟩
  · intro p q hp _
    simp [m0] at hp
  · intro q r hr
    simp [m0, Machine.queue] at hr
  · intro p hp _ _
    simp [m0] at hp
  · intro d
    simp [m0, runCount, occCount]
  · intro d v hm
    simp [m0] at hm
  · simp [m0]

/-! ## C3 — trace liveness: the flush actually runs every queued handler -/

/-- The interpreter only appends to the trace. -/
lemma exec_trace_mono : ∀ (fuel : Nat) (job : Job) (m : Machine),
    ∃ ts, (exec fuel job m).trace = m.trace ++ ts := by
  intro fuel
  induction fuel with
  | zero => exact fun job m => ⟨[], by simp⟩
  | succ fuel ih =>
    intro job m
    cases job with
    | adopt p st =>
      cases hst : (m.cell p).st with
      | pending q =>
        have hred : exec (fuel + 1) (.adopt p st) m
            = exec fuel (.flushLoop q st) (setSt m p st) := by
          simp only [exec, hst]
        rw [hred]
        obtain ⟨ts, hts⟩ := ih (.flushLoop q st) (setSt m p st)
        exact ⟨ts, by rw [hts]; simp⟩
      | fulfilled v =>
        have hred : exec (fuel + 1) (.adopt p st) m = setSt m p st := by
          simp only [exec, hst]
        exact ⟨[], by rw [hred]; simp⟩
      | rejected e =>
        have hred : exec (fuel + 1) (.adopt p st) m = setSt m p st := by
          simp only [exec, hst]
        exact ⟨[], by rw [hred]; simp⟩
    | flushLoop q st =>
      cases hqv : m.queue q with
      | nil =>
        have hred : exec (fuel + 1) (.flushLoop q st) m = m := by
          simp only [exec, hqv]
        exact ⟨[], by rw [hred]; simp⟩
      | cons r0 rs0 =>
        have hred : exec (fuel + 1) (.flushLoop q st) m
            = exec fuel (.flushLoop q st)
                (exec fuel (.flushList (r0 :: rs0) st)
                  (setQueue m q [])) := by
          simp only [exec, hqv]
        rw [hred]
        obtain ⟨t1, h1⟩ := ih (.flushList (r0 :: rs0) st) (setQueue m q [])
        obtain ⟨t2, h2⟩ := ih (.flushLoop q st) _
        exact ⟨t1 ++ t2, by rw [h2, h1]; simp⟩
    | flushList rs st =>
      cases rs with
      | nil => exact ⟨[], by simp only [exec]; simp⟩
      | cons r rest =>
        cases st with
        | pending q2 =>
          have hred :
              exec (fuel + 1) (.flushList (r :: rest) (.pending q2)) m
                = exec fuel (.flushList rest (.pending q2))
                    (pushQ m q2 [r]) := by
            simp only [exec]
          rw [hred]
          obtain ⟨ts, hts⟩ := ih (.flushList rest (.pending q2)) _
          exact ⟨ts, by rw [hts]; simp⟩
        | fulfilled v =>
          have hred :
              exec (fuel + 1) (.flushList (r :: rest) (.fulfilled v)) m
                = exec fuel (.flushList rest (.fulfilled v))
                    (exec fuel (.tryCatch r.d r.onF v) m) := by
            simp only [exec]
          rw [hred]
          obtain ⟨t1, h1⟩ := ih (.tryCatch r.d r.onF v) m
          obtain ⟨t2, h2⟩ := ih (.flushList rest (.fulfilled v)) _
          exact ⟨t1 ++ t2, by rw [h2, h1]; simp⟩
        | rejected e =>
          have hred :
              exec (fuel + 1) (.flushList (r :: rest) (.rejected e)) m
                = exec fuel (.flushList rest (.rejected e))
                    (exec fuel (.tryCatch r.d r.onR e) m) := by
            simp only [exec]
          rw [hred]
          obtain ⟨t1, h1⟩ := ih (.tryCatch r.d r.onR e) m
          obtain ⟨t2, h2⟩ := ih (.flushList rest (.rejected e)) _
          exact ⟨t1 ++ t2, by rw [h2, h1]; simp⟩
    | tryCatch d h arg =>
      cases h with
      | pure f =>
        cases hfv : f arg with
        | thr e =>
          have hred : exec (fuel + 1) (.tryCatch d (.pure f) arg) m
              = exec fuel (.guardedReject d e) (emit m (.run d arg)) := by
            simp only [exec, hfv]
          rw [hred]
          obtain ⟨ts, hts⟩ := ih (.guardedReject d e) _
          exact ⟨[Ev.run d arg] ++ ts, by rw [hts]; simp [emit]⟩
        | ret v =>
          have hred : exec (fuel + 1) (.tryCatch d (.pure f) arg) m
              = exec fuel (.doResolveD d v) (emit m (.run d arg)) := by
            simp only [exec, hfv]
          rw [hred]
          obtain ⟨ts, hts⟩ := ih (.doResolveD d v) _
          exact ⟨[Ev.run d arg] ++ ts, by rw [hts]; simp [emit]⟩
      | observer tag =>
        have hred : exec (fuel + 1) (.tryCatch d (.observer tag) arg) m
            = exec fuel (.doResolveD d .undef)
                (emit (emit m (.run d arg)) (.obs tag arg)) := by
          simp only [exec]
        rw [hred]
        obtain ⟨ts, hts⟩ := ih (.doResolveD d .undef) _
        exact ⟨[Ev.run d arg] ++ ([Ev.obs tag arg] ++ ts),
          by rw [hts]; simp [emit]⟩
      | seqThen tgt inner =>
        cases hts : ((emit m (.run d arg)).cell tgt).st with
        | pending qq =>
          have hred :
              exec (fuel + 1) (.tryCatch d (.seqThen tgt inner) arg) m
                = exec fuel (.doResolveD d
                    (.promise (emit m (.run d arg)).cells.length))
                  (pushQ (addCell (emit m (.run d arg)) false) qq
                    [⟨.pure (inner arg), .pure .thr,
                      (emit m (.run d arg)).cells.length⟩]) := by
            simp only [exec, hts]
          rw [hred]
          obtain ⟨ts2, hts2⟩ := ih (.doResolveD d
            (.promise (emit m (.run d arg)).cells.length)) _
          exact ⟨[Ev.run d arg] ++ ts2, by rw [hts2]; simp [emit]⟩
        | fulfilled v =>
          have hred :
              exec (fuel + 1) (.tryCatch d (.seqThen tgt inner) arg) m
                = exec fuel (.doResolveD d
                    (.promise (emit m (.run d arg)).cells.length))
                  (exec fuel (.tryCatch (emit m (.run d arg)).cells.length
                      (.pure (inner arg)) v)
                    (addCell (emit m (.run d arg)) false)) := by
            simp only [exec, hts]
          rw [hred]
          obtain ⟨t1, h1⟩ := ih (.tryCatch
            (emit m (.run d arg)).cells.length (.pure (inner arg)) v)
            (addCell (emit m (.run d arg)) false)
          obtain ⟨t2, h2⟩ := ih (.doResolveD d
            (.promise (emit m (.run d arg)).cells.length)) _
          exact ⟨[Ev.run d arg] ++ (t1 ++ t2),
            by rw [h2, h1]; simp [emit]⟩
        | rejected e =>
          have hred :
              exec (fuel + 1) (.tryCatch d (.seqThen tgt inner) arg) m
                = exec fuel (.doResolveD d
                    (.promise (emit m (.run d arg)).cells.length))
                  (exec fuel (.tryCatch (emit m (.run d arg)).cells.length
                      (.pure .thr) e)
                    (addCell (emit m (.run d arg)) false)) := by
            simp only [exec, hts]
          rw [hred]
          obtain ⟨t1, h1⟩ := ih (.tryCatch
            (emit m (.run d arg)).cells.length (.pure .thr) e)
            (addCell (emit m (.run d arg)) false)
          obtain ⟨t2, h2⟩ := ih (.doResolveD d
            (.promise (emit m (.run d arg)).cells.length)) _
          exact ⟨[Ev.run d arg] ++ (t1 ++ t2),
            by rw [h2, h1]; simp [emit]⟩
      | abortThrow =>
        have hred : exec (fuel + 1) (.tryCatch d .abortThrow arg) m
            = exec fuel (.guardedReject d arg)
                { emit m (.run d arg) with abortRequested := true } := by
          simp only [exec]
        rw [hred]
        obtain ⟨ts, hts⟩ := ih (.guardedReject d arg) _
        exact ⟨[Ev.run d arg] ++ ts, by rw [hts]; simp [emit]⟩
    | doResolveD d res =>
      by_cases hself : res = .promise d
      · have hred : exec (fuel + 1) (.doResolveD d res) m
            = exec fuel (.guardedReject d selfErr) m := by
          simp only [exec, if_pos hself]
        rw [hred]
        exact ih (.guardedReject d selfErr) m
      · by_cases hplain : isPlain res = true
        · rw [exec_doResolveD_plain fuel hplain]
          exact ih (.guardedResolve d res) m
        · obtain ⟨j, rfl⟩ : ∃ j, res = Val.promise j := by
            cases res <;> simp_all [isPlain]
          have hjd : j ≠ d := fun he => hself (by rw [he])
          rw [exec_doResolveD_promiseRef fuel hjd]
          by_cases hj : j < m.cells.length
          · rw [if_pos hj]
            exact ih (.adopt d ((m.cell j).st)) m
          · rw [if_neg hj]
            exact ih (.guardedResolve d (.promise j)) m
    | guardedResolve d v =>
      by_cases hc : (m.cell d).called = true
      · have hred : exec (fuel + 1) (.guardedResolve d v) m = m := by
          simp [exec, hc]
        exact ⟨[], by rw [hred]; simp⟩
      · have hc' : (m.cell d).called = false := by
          cases hcv : (m.cell d).called
          · rfl
          · exact absurd hcv hc
        have hred : exec (fuel + 1) (.guardedResolve d v) m
            = exec fuel (.adopt d (.fulfilled v)) (setCalled m d) := by
          simp [exec, hc']
        rw [hred]
        obtain ⟨ts, hts⟩ := ih (.adopt d (.fulfilled v)) (setCalled m d)
        exact ⟨ts, by rw [hts]; simp⟩
    | guardedReject d e =>
      by_cases hc : (m.cell d).called = true
      · have hred : exec (fuel + 1) (.guardedReject d e) m = m := by
          simp [exec, hc]
        exact ⟨[], by rw [hred]; simp⟩
      · have hc' : (m.cell d).called = false := by
          cases hcv : (m.cell d).called
          · rfl
          · exact absurd hcv hc
        have hred : exec (fuel + 1) (.guardedReject d e) m
            = exec fuel (.adopt d (.rejected e)) (setCalled m d) := by
          simp [exec, hc']
        rw [hred]
        obtain ⟨ts, hts⟩ := ih (.adopt d (.rejected e)) (setCalled m d)
        exact ⟨ts, by rw [hts]; simp⟩

/-- `tryCatchDeferred` records the handler invocation first: whatever else
happens, its result trace extends the trace through the `run` event. -/
lemma tryCatch_trace (fuel : Nat) (d : Nat) (h : Handler) (arg : Val)
    (m : Machine) :
    ∃ ts, (exec (fuel + 1) (.tryCatch d h arg) m).trace
      = m.trace ++ [Ev.run d arg] ++ ts := by
  cases h with
  | pure f =>
    cases hfv : f arg with
    | thr e =>
      have hred : exec (fuel + 1) (.tryCatch d (.pure f) arg) m
          = exec fuel (.guardedReject d e) (emit m (.run d arg)) := by
        simp only [exec, hfv]
      rw [hred]
      obtain ⟨ts, hts⟩ := exec_trace_mono fuel (.guardedReject d e) _
      exact ⟨ts, by rw [hts]; simp [emit]⟩
    | ret v =>
      have hred : exec (fuel + 1) (.tryCatch d (.pure f) arg) m
          = exec fuel (.doResolveD d v) (emit m (.run d arg)) := by
        simp only [exec, hfv]
      rw [hred]
      obtain ⟨ts, hts⟩ := exec_trace_mono fuel (.doResolveD d v) _
      exact ⟨ts, by rw [hts]; simp [emit]⟩
  | observer tag =>
    have hred : exec (fuel + 1) (.tryCatch d (.observer tag) arg) m
        = exec fuel (.doResolveD d .undef)
            (emit (emit m (.run d arg)) (.obs tag arg)) := by
      simp only [exec]
    rw [hred]
    obtain ⟨ts, hts⟩ := exec_trace_mono fuel (.doResolveD d .undef) _
    exact ⟨[Ev.obs tag arg] ++ ts, by rw [hts]; simp [emit]⟩
  | seqThen tgt inner =>
    cases hts : ((emit m (.run d arg)).cell tgt).st with
    | pending qq =>
      have hred :
          exec (fuel + 1) (.tryCatch d (.seqThen tgt inner) arg) m
            = exec fuel (.doResolveD d
                (.promise (emit m (.run d arg)).cells.length))
              (pushQ (addCell (emit m (.run d arg)) false) qq
                [⟨.pure (inner arg), .pure .thr,
                  (emit m (.run d arg)).cells.length⟩]) := by
        simp only [exec, hts]
      rw [hred]
      obtain ⟨ts2, hts2⟩ := exec_trace_mono fuel (.doResolveD d
        (.promise (emit m (.run d arg)).cells.length)) _
      exact ⟨ts2, by rw [hts2]; simp [emit]⟩
    | fulfilled v =>
      have hred :
          exec (fuel + 1) (.tryCatch d (.seqThen tgt inner) arg) m
            = exec fuel (.doResolveD d
                (.promise (emit m (.run d arg)).cells.length))
              (exec fuel (.tryCatch (emit m (.run d arg)).cells.length
                  (.pure (inner arg)) v)
                (addCell (emit m (.run d arg)) false)) := by
        simp only [exec, hts]
      rw [hred]
      obtain ⟨t1, h1⟩ := exec_trace_mono fuel (.tryCatch
        (emit m (.run d arg)).cells.length (.pure (inner arg)) v)
        (addCell (emit m (.run d arg)) false)
      obtain ⟨t2, h2⟩ := exec_trace_mono fuel (.doResolveD d
        (.promise (emit m (.run d arg)).cells.length)) _
      exact ⟨t1 ++ t2, by rw [h2, h1]; simp [emit]⟩
    | rejected e =>
      have hred :
          exec (fuel + 1) (.tryCatch d (.seqThen tgt inner) arg) m
            = exec fuel (.doResolveD d
                (.promise (emit m (.run d arg)).cells.length))
              (exec fuel (.tryCatch (emit m (.run d arg)).cells.length
                  (.pure .thr) e)
                (addCell (emit m (.run d arg)) false)) := by
        simp only [exec, hts]
      rw [hred]
      obtain ⟨t1, h1⟩ := exec_trace_mono fuel (.tryCatch
        (emit m (.run d arg)).cells.length (.pure .thr) e)
        (addCell (emit m (.run d arg)) false)
      obtain ⟨t2, h2⟩ := exec_trace_mono fuel (.doResolveD d
        (.promise (emit m (.run d arg)).cells.length)) _
      exact ⟨t1 ++ t2, by rw [h2, h1]; simp [emit]⟩
  | abortThrow =>
    have hred : exec (fuel + 1) (.tryCatch d .abortThrow arg) m
        = exec fuel (.guardedReject d arg)
            { emit m (.run d arg) with abortRequested := true } := by
      simp only [exec]
    rw [hred]
    obtain ⟨ts, hts⟩ := exec_trace_mono fuel (.guardedReject d arg) _
    exact ⟨ts, by rw [hts]; simp [emit]⟩

/-- The `run` event is in the trace after `tryCatchDeferred`. -/
lemma tryCatch_emits (fuel : Nat) (d : Nat) (h : Handler) (arg : Val)
    (m : Machine) :
    Ev.run d arg ∈ (exec (fuel + 1) (.tryCatch d h arg) m).trace := by
  obtain ⟨ts, hts⟩ := tryCatch_trace fuel d h arg m
  rw [hts]
  simp

/-- With enough fuel, flushing a snapshot of reactions against a fulfilled
state runs every one of them. -/
lemma flushList_runs (v : Val) : ∀ (rs : List Reaction) (fuel : Nat)
    (m : Machine), rs.length < fuel → ∀ r ∈ rs,
    Ev.run r.d v ∈ (exec fuel (.flushList rs (.fulfilled v)) m).trace := by
  intro rs
  induction rs with
  | nil => intro fuel m _ r hr; cases hr
  | cons r0 rest ih =>
    intro fuel m hf r hr
    obtain ⟨k, rfl⟩ : ∃ k, fuel = k + 1 := ⟨fuel - 1, by omega⟩
    have hred : exec (k + 1) (.flushList (r0 :: rest) (.fulfilled v)) m
        = exec k (.flushList rest (.fulfilled v))
            (exec k (.tryCatch r0.d r0.onF v) m) := by
      simp only [exec]
    rw [hred]
    have hk : rest.length < k := by
      simp only [List.length_cons] at hf
      omega
    rcases List.mem_cons.1 hr with rfl | hr1
    · obtain ⟨k2, rfl⟩ : ∃ k2, k = k2 + 1 := ⟨k - 1, by omega⟩
      have hm := tryCatch_emits k2 r.d r.onF v m
      obtain ⟨ts, hts⟩ := exec_trace_mono (k2 + 1)
        (.flushList rest (.fulfilled v)) _
      rw [hts]
      exact List.mem_append.2 (Or.inl hm)
    · exact ih k _ hk r hr1

/-- `resolve` on an uncalled promise with a plain (non-promise) value:
consume the guard and adopt the fulfilled state. -/
lemma resolveOp_plain {m : Machine} {p : Nat} {v : Val} (fuel : Nat)
    (hc : (m.cell p).called = false) (hv : isPlain v = true) :
    resolveOp fuel p v m
      = exec fuel (.adopt p (.fulfilled v)) (setCalled m p) := by
  unfold resolveOp
  rw [if_neg (by simp [hc] : ¬ ((m.cell p).called = true))]
  have hne : ¬ (v = .promise p) := by
    cases v <;> simp_all [isPlain]
  rw [if_neg hne]
  cases v <;> simp_all [isPlain]

/-! ## C3 — the claim, its counterexample, and its witness -/

/-- C3 (amended): over any user program against the promise machine,
(i) once a `SyncPromise` cell is settled it is immutable — any further user
program leaves the entire cell unchanged; (ii) the reaction settling any
deferred is run at most once, ever; and (iii) at the moment an externally
resolvable promise that is still pending (its resolver guard unconsumed) is
resolved with a plain value, every reaction then queued on its queue is run
exactly once, within that `resolve` call (given fuel covering the queue).
The unqualified "a handler registered on a pending promise always runs when
its value becomes determined" is refuted by the adoption counterexample
below. -/
theorem c3_settled_cells_immutable_and_reactions_run_exactly_once :
    (∀ fuel1 fuel2 (ops1 ops2 : List Op) (p : Nat),
      ((execProg fuel1 ops1 m0).cell p).st.isSettled = true →
      (execProg fuel2 ops2 (execProg fuel1 ops1 m0)).cell p
        = (execProg fuel1 ops1 m0).cell p)
    ∧ (∀ fuel (ops : List Op) (d : Nat),
        runCount (execProg fuel ops m0).trace d ≤ 1)
    ∧ (∀ fuel (ops : List Op) (p q : Nat) (v : Val) (r : Reaction)
        (fuel2 : Nat),
        ((execProg fuel ops m0).cell p).st = .pending q →
        ((execProg fuel ops m0).cell p).ext = true →
        ((execProg fuel ops m0).cell p).called = false →
        isPlain v = true →
        r ∈ (execProg fuel ops m0).queue q →
        ((execProg fuel ops m0).queue q).length + 3 ≤ fuel2 →
        runCount (stepOp fuel2 (.callResolve p v)
            (execProg fuel ops m0)).trace r.d = 1) := by
  refine ⟨?_, ?_, ?_⟩
  · intro fuel1 fuel2 ops1 ops2 p hs
    exact (progPres fuel2 ops2 _ (progPres fuel1 ops1 m0 INV_m0).1).2 p hs
  · intro fuel ops d
    have hb := (progPres fuel ops m0 INV_m0).1.budget d
    omega
  · intro fuel ops p q v r fuel2 hst hext hcalled hplain hr hfl
    have hinv : INV (execProg fuel ops m0) :=
      (progPres fuel ops m0 INV_m0).1
    have hub :=
      (stepPres fuel2 (.callResolve p v) (execProg fuel ops m0) hinv).1.budget
        r.d
    have hp : p < (execProg fuel ops m0).cells.length := lt_of_ext hext
    obtain ⟨k2, rfl⟩ : ∃ k2, fuel2 = k2 + 2 := ⟨fuel2 - 2, by omega⟩
    have hlen : ((execProg fuel ops m0).queue q).length < k2 := by omega
    have hstep : stepOp (k2 + 2) (.callResolve p v) (execProg fuel ops m0)
        = exec (k2 + 2) (.adopt p (.fulfilled v))
            (setCalled (execProg fuel ops m0) p) := by
      have h1 : stepOp (k2 + 2) (.callResolve p v) (execProg fuel ops m0)
          = resolveOp (k2 + 2) p v (execProg fuel ops m0) := by
        simp [stepOp, hext]
      rw [h1]
      exact resolveOp_plain (k2 + 2) hcalled hplain
    have hstc : ((setCalled (execProg fuel ops m0) p).cell p).st
        = .pending q := by
      rw [cell_setCalled_st (execProg fuel ops m0) hp]
      exact hst
    have hred1 : exec (k2 + 2) (.adopt p (.fulfilled v))
          (setCalled (execProg fuel ops m0) p)
        = exec (k2 + 1) (.flushLoop q (.fulfilled v))
            (setSt (setCalled (execProg fuel ops m0) p) p
              (.fulfilled v)) := by
      simp only [exec, hstc]
    cases hqv : (execProg fuel ops m0).queue q with
    | nil =>
      rw [hqv] at hr
      cases hr
    | cons r0 rs0 =>
      have hred2 : exec (k2 + 1) (.flushLoop q (.fulfilled v))
            (setSt (setCalled (execProg fuel ops m0) p) p (.fulfilled v))
          = exec k2 (.flushLoop q (.fulfilled v))
              (exec k2 (.flushList (r0 :: rs0) (.fulfilled v))
                (setQueue (setSt (setCalled (execProg fuel ops m0) p) p
                  (.fulfilled v)) q [])) := by
        simp only [exec,
          show (setSt (setCalled (execProg fuel ops m0) p) p
              (.fulfilled v)).queue q = r0 :: rs0 from hqv]
      have hmem : Ev.run r.d v
          ∈ (exec k2 (.flushList (r0 :: rs0) (.fulfilled v))
              (setQueue (setSt (setCalled (execProg fuel ops m0) p) p
                (.fulfilled v)) q [])).trace := by
        apply flushList_runs v (r0 :: rs0) k2 _ _ r
        · rw [hqv] at hr
          exact hr
        · rw [hqv] at hlen
          exact hlen
      obtain ⟨ts, hts⟩ :=
        exec_trace_mono k2 (.flushLoop q (.fulfilled v)) _
      have hge : Ev.run r.d v
          ∈ (stepOp (k2 + 2) (.callResolve p v)
              (execProg fuel ops m0)).trace := by
        rw [hstep, hred1, hred2, hts]
        exact List.mem_append.2 (Or.inl hmem)
      have h1 := runCount_pos_of_mem hge
      omega

/-- C3 counterexample: the adoption caveat.  In `zombieEarlyObs` the
observer is registered while promise 0 is pending; when promise 0 adopts
the still-pending promise 1, the queued reaction migrates onto promise 1's
queue and runs the moment promise 1 fulfills with `5` (the trace shows the
run and the observation).  In `zombieProg` the same observer is registered
only after promise 1 has fulfilled: promise 0's value is determined
(promise 1 holds `5`), yet promise 0 is still pending — its `_value`
aliases promise 1's already-flushed queue — so the registration parks the
reaction on that dead queue and no handler ever runs (empty trace), refuting
"a handler registered via `then` on a pending promise always runs when the
promise's value becomes determined". -/
theorem c3_counterexample_late_handler_after_adoption_never_runs :
    (execProg 10 zombieEarlyObs m0).trace
        = [.run 2 (.num 5), .obs 7 (.num 5)]
    ∧ ((execProg 10 zombieProg m0).cell 1).st = .fulfilled (.num 5)
    ∧ ((execProg 10 zombieProg m0).cell 0).st = .pending 1
    ∧ (execProg 10 zombieProg m0).trace = []
    ∧ ((execProg 10 zombieProg m0).queue 1).map Reaction.d = [2] :=
  ⟨rfl, rfl, rfl, rfl, rfl⟩

/-- Witness for C3 at concrete programs: a cell settled by one program is
untouched by a later handler-registering program; the at-most-once bound at
a concrete deferred; and resolving a pending promise holding one queued
observer runs that observer's reaction exactly once. -/
theorem c3_settled_cells_immutable_witness :
    ((execProg 8 [Op.newP, Op.callResolve 0 (.num 1)] m0).cell
        0).st.isSettled = true
    ∧ (execProg 8 [Op.thenObs 0 0]
          (execProg 8 [Op.newP, Op.callResolve 0 (.num 1)] m0)).cell 0
        = (execProg 8 [Op.newP, Op.callResolve 0 (.num 1)] m0).cell 0
    ∧ runCount (execProg 8 [Op.newP, Op.thenObs 0 4] m0).trace 1 ≤ 1
    ∧ isPlain (Val.num 9) = true
    ∧ (⟨.observer 4, .observer 4, 1⟩ : Reaction)
        ∈ (execProg 8 [Op.newP, Op.thenObs 0 4] m0).queue 0
    ∧ ((execProg 8 [Op.newP, Op.thenObs 0 4] m0).queue 0).length + 3 ≤ 9
    ∧ runCount (stepOp 9 (Op.callResolve 0 (.num 9))
          (execProg 8 [Op.newP, Op.thenObs 0 4] m0)).trace 1 = 1 := by
  have hmem : (⟨.observer 4, .observer 4, 1⟩ : Reaction)
      ∈ (execProg 8 [Op.newP, Op.thenObs 0 4] m0).queue 0 := by
    rw [show (execProg 8 [Op.newP, Op.thenObs 0 4] m0).queue 0
        = [(⟨.observer 4, .observer 4, 1⟩ : Reaction)] from rfl]
    exact List.mem_singleton.2 rfl
  refine ⟨rfl, ?_, ?_, rfl, hmem, by decide, ?_⟩
  · exact c3_settled_cells_immutable_and_reactions_run_exactly_once.1 8 8
      [Op.newP, Op.callResolve 0 (.num 1)] [Op.thenObs 0 0] 0 rfl
  · exact c3_settled_cells_immutable_and_reactions_run_exactly_once.2.1 8
      [Op.newP, Op.thenObs 0 4] 1
  · exact c3_settled_cells_immutable_and_reactions_run_exactly_once.2.2 8
      [Op.newP, Op.thenObs 0 4] 0 0 (Val.num 9)
      ⟨.observer 4, .observer 4, 1⟩ 9 rfl rfl rfl rfl hmem (by decide)

end IdbP
